import Mathlib

/-!
Verification of the crawl engine in `src/sitemap.py` of the
sitemap-content-extractor repository.

The Python code is shallowly embedded here.  Python strings are modelled as
`List Char` (`PyStr`); the relevant parts of the standard library that the
code calls (`urllib.parse.urlparse` / `urlunparse` as used by
`normalize_url`, and `urllib.robotparser.RobotFileParser` as used by
`fetch_robots` / `can_fetch`) are modelled from their CPython sources
(CPython 3.11), because the behaviour of `sitemap.py` is inseparable from
them.  Fallible operations (CPython's `urlsplit` raises `ValueError` on a
netloc with mismatched square brackets) return `Option`.

Two `urlsplit` validation steps that affect only exotic netlocs are not
modelled and are treated as passing: `_check_bracketed_host` (rejects a
bracketed netloc that is not a valid IPv6/IPvFuture address) and
`_checknetloc` (rejects non-ASCII netlocs containing NFKC-expanding
characters).  Both depend only on the netloc component, which the theorems
below carry through unchanged, and no concrete input used here contains
square brackets or non-ASCII characters.
-/

namespace SitemapPy

/-- Python strings are modelled as lists of characters. -/
abbrev PyStr := List Char

/-- Lowercase an ASCII letter, leave other characters unchanged.  This is
what Python's `str.lower` does on the ASCII scheme characters that it is
applied to in `urlsplit`. -/
def pyLower (c : Char) : Char :=
  if 'A' ≤ c ∧ c ≤ 'Z' then Char.ofNat (c.toNat + 32) else c

/-- Membership in CPython's `scheme_chars`
(ASCII letters, digits and the three characters plus, minus, dot). -/
def isSchemeChar (c : Char) : Bool :=
  c.isAlpha || c.isDigit || c = '+' || c = '-' || c = '.'

/-- One of the characters CPython's `urlsplit` deletes everywhere in a URL
(`_UNSAFE_URL_BYTES_TO_REMOVE`: tab, carriage return, newline). -/
def isUnsafeChar (c : Char) : Bool :=
  c = '\t' || c = '\r' || c = '\n'

/-- Initial cleanup performed by CPython's `urlsplit`: strip leading
C0-control-or-space characters, then delete tab, CR and LF everywhere. -/
def cleanUrl (s : PyStr) : PyStr :=
  (s.dropWhile (fun c => c.toNat ≤ 32)).filter (fun c => !isUnsafeChar c)

/-- Split a list at the first occurrence of `c`: returns the prefix before
the first `c` together with (some of) the suffix after it, or `none` in the
second component when `c` does not occur.  Models Python's
`s.split(c, 1)` / `s.find(c)` combination. -/
def splitFirst (c : Char) : PyStr → PyStr × Option PyStr
  | [] => ([], none)
  | x :: xs =>
    if x = c then ([], some xs)
    else
      let r := splitFirst c xs
      (x :: r.1, r.2)

/-- Split a list at the last occurrence of `c` (prefix before it, suffix
after it), or `none` when `c` does not occur.  Models `s.rfind(c)`. -/
def splitLast (c : Char) : PyStr → Option (PyStr × PyStr)
  | [] => none
  | x :: xs =>
    match splitLast c xs with
    | some (a, b) => some (x :: a, b)
    | none => if x = c then some ([], xs) else none

/-- Char is not one of the netloc delimiters slash, question mark, hash. -/
def notDelim (c : Char) : Bool :=
  !(c = '/' || c = '?' || c = '#')

/-- Result of CPython's `urlsplit`: the five components scheme, netloc,
path, query, fragment. -/
structure SplitResult where
  scheme : PyStr
  netloc : PyStr
  path : PyStr
  query : PyStr
  fragment : PyStr
deriving DecidableEq, Repr

/-- Result of CPython's `urlparse`: `urlsplit` plus the params component
split off the path. -/
structure ParseResult where
  scheme : PyStr
  netloc : PyStr
  path : PyStr
  params : PyStr
  query : PyStr
  fragment : PyStr
deriving DecidableEq, Repr

/-- Scheme recognition of CPython's `urlsplit`: if the text before the
first colon is nonempty, starts with an ASCII letter and consists of
scheme characters, it is the (lowercased) scheme. -/
def schemeSplit (url : PyStr) : PyStr × PyStr :=
  match splitFirst ':' url with
  | (pre, some post) =>
    match pre with
    | [] => ([], url)
    | h :: t =>
      if h.isAlpha ∧ t.all isSchemeChar then ((h :: t).map pyLower, post)
      else ([], url)
  | (_, none) => ([], url)

/-- Fragment and query extraction of `urlsplit` applied to the part of the
URL after scheme and netloc: split at the first hash, then the prefix at
the first question mark. -/
def mkSplit (scheme netloc rest : PyStr) : SplitResult :=
  let fr := splitFirst '#' rest
  let qr := splitFirst '?' fr.1
  ⟨scheme, netloc, qr.1, qr.2.getD [], fr.2.getD []⟩

/-- CPython's `urlsplit` after the initial cleanup: scheme recognition,
netloc extraction after a double slash (rejecting mismatched square
brackets with a `ValueError`, modelled as `none`), then fragment and query
splits. -/
def urlsplitCore (u1 : PyStr) : Option SplitResult :=
  let sp := schemeSplit u1
  let scheme := sp.1
  let u2 := sp.2
  if u2.take 2 = ['/', '/'] then
    let netloc := (u2.drop 2).takeWhile notDelim
    let rest := (u2.drop 2).dropWhile notDelim
    if (('[' ∈ netloc) ↔ (']' ∈ netloc)) then some (mkSplit scheme netloc rest)
    else none
  else some (mkSplit scheme [] u2)

/-- CPython's `urlsplit` with `allow_fragments=True` and default scheme. -/
def urlsplit (url : PyStr) : Option SplitResult :=
  urlsplitCore (cleanUrl url)

/-- CPython's `_splitparams`: if the path contains a slash, split at the
first semicolon after the last slash; otherwise at the first semicolon.
Returns (path, params). -/
def splitparams (p : PyStr) : PyStr × PyStr :=
  match splitLast '/' p with
  | some (a, b) =>
    match splitFirst ';' b with
    | (b1, some b2) => (a ++ '/' :: b1, b2)
    | (_, none) => (p, [])
  | none =>
    match splitFirst ';' p with
    | (p1, some p2) => (p1, p2)
    | (_, none) => (p, [])

/-- CPython's `uses_params` scheme list: params are split off the path only
for these schemes (the empty scheme is a member). -/
def uses_params : List PyStr :=
  ["", "ftp", "hdl", "prospero", "http", "imap", "https", "shttp", "rtsp",
   "rtsps", "rtspu", "sip", "sips", "mms", "sftp", "tel"].map String.data

/-- CPython's `uses_netloc` scheme list, consulted by `urlunsplit` when the
netloc component is empty. -/
def uses_netloc : List PyStr :=
  ["", "ftp", "http", "gopher", "nntp", "telnet", "imap", "wais", "file",
   "mms", "https", "shttp", "snews", "prospero", "rtsp", "rtsps", "rtspu",
   "rsync", "svn", "svn+ssh", "sftp", "nfs", "git", "git+ssh", "ws",
   "wss"].map String.data

/-- CPython's `urlparse`: `urlsplit` followed by `_splitparams`, the latter
applied only when the scheme is in `uses_params` and the path contains a
semicolon. -/
def urlparse (url : PyStr) : Option ParseResult :=
  (urlsplit url).map fun sr =>
    if sr.scheme ∈ uses_params ∧ ';' ∈ sr.path then
      let pp := splitparams sr.path
      ⟨sr.scheme, sr.netloc, pp.1, pp.2, sr.query, sr.fragment⟩
    else
      ⟨sr.scheme, sr.netloc, sr.path, [], sr.query, sr.fragment⟩

/-- CPython's `urlunsplit` / `urlunparse` reassembly, as invoked by
`ParseResult.geturl`: rejoin path and params, re-attach the double slash
and netloc when the netloc is nonempty (or the scheme conventionally uses
a netloc and the path does not already begin with a double slash), then
scheme, query and fragment. -/
def urlunparse (pr : ParseResult) : PyStr :=
  let u1 := if pr.params ≠ [] then pr.path ++ ';' :: pr.params else pr.path
  let u2 :=
    if pr.netloc ≠ [] ∨ (pr.scheme ≠ [] ∧ pr.scheme ∈ uses_netloc ∧ u1.take 2 ≠ ['/', '/']) then
      let u1a := if u1 ≠ [] ∧ u1.head? ≠ some '/' then '/' :: u1 else u1
      '/' :: '/' :: pr.netloc ++ u1a
    else u1
  let u3 := if pr.scheme ≠ [] then pr.scheme ++ ':' :: u2 else u2
  let u4 := if pr.query ≠ [] then u3 ++ '?' :: pr.query else u3
  if pr.fragment ≠ [] then u4 ++ '#' :: pr.fragment else u4

/-- The function `normalize_url` of `src/sitemap.py`: parse the URL, drop
exactly one trailing slash from the path when present, clear the fragment,
and reassemble with `geturl`. -/
def normalize_url (url : PyStr) : Option PyStr :=
  (urlparse url).map fun pr =>
    let pr1 :=
      if pr.path.getLast? = some '/' then
        { pr with path := pr.path.dropLast }
      else pr
    urlunparse { pr1 with fragment := [] }

/-- Python's `round(x, 1)` on the exact rational values produced by
`1.0 - 0.1 * k`: round to the nearest tenth.  On the values reached by
`determine_priority` the argument of the rounding is an exact multiple of
one tenth, so the float computation and any tie-breaking convention agree
with this rational model (checked against CPython for all depths). -/
def roundTenth (q : ℚ) : ℚ :=
  ((round (q * 10) : ℤ) : ℚ) / 10

/-- The function `determine_priority` of `src/sitemap.py`:
`max(0.1, round(1.0 - 0.1 * urlparse(url).path.count("/"), 1))`. -/
def determine_priority (url : PyStr) : Option ℚ :=
  (urlparse url).map fun pr =>
    max (1 / 10) (roundTenth (1 - (pr.path.count '/' : ℚ) / 10))

/-- Python string comparison (strict, lexicographic by code point). -/
def pyStrLt : PyStr → PyStr → Bool
  | [], [] => false
  | [], _ :: _ => true
  | _ :: _, [] => false
  | a :: as, b :: bs => if a = b then pyStrLt as bs else decide (a.toNat < b.toNat)

/-- Comparison corresponding to the Python sort key
`lambda x: (-determine_priority(x), x)` on (url, priority) pairs:
ascending in minus-priority, ties broken by ascending url string. -/
def keyLe (a b : PyStr × ℚ) : Bool :=
  decide (b.2 < a.2) || (decide (a.2 = b.2) && (decide (a.1 = b.1) || pyStrLt a.1 b.1))

/-- Insert into a sorted list (kept in `keyLe` order). -/
def insertKey (x : PyStr × ℚ) : List (PyStr × ℚ) → List (PyStr × ℚ)
  | [] => [x]
  | y :: ys => if keyLe x y then x :: y :: ys else y :: insertKey x ys

/-- Sorting by the Python sort key.  Python's `list.sort` is a stable sort;
since the key here determines the element (the key contains the url string
and the priority is a function of the url), every sort agreeing with the
key order produces the same list, so an insertion sort models it
exactly. -/
def sortKey : List (PyStr × ℚ) → List (PyStr × ℚ)
  | [] => []
  | x :: xs => insertKey x (sortKey xs)

/-- Pair each url with its priority; `none` if some url fails to parse
(that exception would propagate out of `generate_sitemap`). -/
def pairsOf : List PyStr → Option (List (PyStr × ℚ))
  | [] => some []
  | u :: us =>
    match determine_priority u, pairsOf us with
    | some p, some ps => some ((u, p) :: ps)
    | _, _ => none

/-- The function `generate_sitemap` of `src/sitemap.py`, modelled as the
list of (loc, priority) entries it writes, in document order: the input
list sorted in place by `(-priority, url)`, each entry carrying the url
and its priority. -/
def generate_sitemap (urls : List PyStr) : Option (List (PyStr × ℚ)) :=
  (pairsOf urls).map sortKey

/-- The value of the caller's `urls` list after `generate_sitemap` returns:
`list.sort` mutates the argument in place, so the caller observes the
sorted permutation. -/
def generate_sitemap_urls_after (urls : List PyStr) : Option (List PyStr) :=
  (generate_sitemap urls).map (List.map Prod.fst)

/-!  Robots handling.  `fetch_robots` in `src/sitemap.py` wraps CPython's
`urllib.robotparser.RobotFileParser`: it calls `rp.read()` inside a
`try/except` that logs and falls through, then returns `rp` — so it never
raises, which is modelled by `fetch_robots` being total.  The parser state
relevant to `can_fetch` is `disallow_all`, `allow_all` and `last_checked`
(0 until `parse` runs); the per-entry allow/disallow rule matching that
`can_fetch` performs once those gates pass is abstracted as the function
`ruleAllows` of the user agent and url. -/

/-- State of a `RobotFileParser` as far as `can_fetch` observes it. -/
structure RobotsRules where
  disallow_all : Bool
  allow_all : Bool
  last_checked : Bool
  ruleAllows : PyStr → PyStr → Bool

/-- Outcome of the network interaction inside `RobotFileParser.read`. -/
inductive RobotsFetch where
  | ok (allow : PyStr → PyStr → Bool)
  | httpError (code : Nat)
  | raised

/-- The function `fetch_robots` of `src/sitemap.py` combined with CPython's
`RobotFileParser.read`: on a successful fetch the content is parsed (which
sets `last_checked`); an `HTTPError` with code 401 or 403 sets
`disallow_all`, any other 4xx code sets `allow_all`; every other exception
(connection failure, a 5xx `HTTPError` falls through `read` untouched,
undecodable content) leaves the parser in its initial state — the
`except` clause of `fetch_robots` only logs.  The function never raises. -/
def fetch_robots (outcome : RobotsFetch) : RobotsRules :=
  match outcome with
  | .ok allow => ⟨false, false, true, allow⟩
  | .httpError code =>
    if code = 401 ∨ code = 403 then ⟨true, false, false, fun _ _ => false⟩
    else if 400 ≤ code ∧ code < 500 then ⟨false, true, false, fun _ _ => false⟩
    else ⟨false, false, false, fun _ _ => false⟩
  | .raised => ⟨false, false, false, fun _ _ => false⟩

/-- CPython's `RobotFileParser.can_fetch`: deny everything when
`disallow_all`, allow everything when `allow_all`, deny everything until a
robots.txt has actually been parsed (`last_checked` still 0), otherwise
match the parsed entries (abstracted as `ruleAllows`). -/
def can_fetch (rp : RobotsRules) (useragent url : PyStr) : Bool :=
  if rp.disallow_all then false
  else if rp.allow_all then true
  else if !rp.last_checked then false
  else rp.ruleAllows useragent url

/-!  The retry loop of `fetch_article` (`src/sitemap.py`).  Each loop
iteration issues one `requests.get`; `raise_for_status` raises (a
`RequestException`) exactly for status codes 400–599; a `RequestException`
is caught, logged, and followed by `time.sleep(2 ** attempt)` — including
after the final attempt; a response whose Content-Type does not contain
"text/html" returns `(None, None)` at once; otherwise the page is decoded,
parsed and saved and the function returns the name/soup pair (modelled as
`some ()`).  After the loop the function returns `(None, None)`. -/

/-- Observable result of one `requests.get` call. -/
inductive AttemptOutcome where
  | exc
  | resp (status : Nat) (contentType : PyStr)

/-- Events of a `fetch_article` run: HTTP GET attempts and sleeps. -/
inductive FetchEvent where
  | get
  | sleep (secs : Nat)
deriving DecidableEq, Repr

/-- Whether `response.raise_for_status()` raises: 4xx and 5xx codes. -/
def raise_for_status (status : Nat) : Bool :=
  decide (400 ≤ status) && decide (status < 600)

/-- Python's substring operator `needle in hay` on strings. -/
def containsSub (needle : PyStr) : PyStr → Bool
  | [] => needle.isEmpty
  | c :: rest => needle.isPrefixOf (c :: rest) || containsSub needle rest

/-- The body of `fetch_article`'s `for attempt in range(retries)` loop,
recursing on the number of remaining iterations. -/
def fetchAttempts (outcomes : Nat → AttemptOutcome) : Nat → Nat → List FetchEvent × Option Unit
  | _, 0 => ([], none)
  | attempt, remaining + 1 =>
    match outcomes attempt with
    | .exc =>
      let r := fetchAttempts outcomes (attempt + 1) remaining
      (FetchEvent.get :: FetchEvent.sleep (2 ^ attempt) :: r.1, r.2)
    | .resp status ct =>
      if raise_for_status status then
        let r := fetchAttempts outcomes (attempt + 1) remaining
        (FetchEvent.get :: FetchEvent.sleep (2 ^ attempt) :: r.1, r.2)
      else if containsSub "text/html".data ct then ([FetchEvent.get], some ())
      else ([FetchEvent.get], none)

/-- The function `fetch_article` of `src/sitemap.py`, parametrised by the
outcome of each GET attempt; returns the event trace and the result
(`none` models the `(None, None)` returns). -/
def fetch_article (outcomes : Nat → AttemptOutcome) (retries : Nat) :
    List FetchEvent × Option Unit :=
  fetchAttempts outcomes 0 retries

/-!  The crawl loop `extract_links` of `src/sitemap.py`.  The link graph is
abstracted as `web : PyStr → Option (List PyStr)`: `web url = some links`
means `fetch_article url` succeeds with a page whose anchor hrefs resolve
(via `urljoin`) to the absolute URL strings `links`; `web url = none`
means the fetch fails (exhausted retries, non-HTML content, or a page
whose parsed soup is falsy).  `to_visit` and `visited` are Python sets;
they are modelled as duplicate-free lists, and the arbitrary element
`set.pop` removes is chosen by the oracle `pick` (one number per loop
iteration), so every pop order realisable by Python's hash-based sets is
an instance of the model. -/

/-- State of the `extract_links` loop, plus the log of `fetch_article`
calls (url and whether the fetch succeeded), which is the observable the
no-duplicate-fetch and politeness claims speak about. -/
structure CrawlState where
  visited : List PyStr
  toVisit : List PyStr
  log : List (PyStr × Bool)
deriving DecidableEq, Repr

/-- The `for link in links` body of `extract_links`: normalize the link,
admit it to `to_visit` when its netloc equals the netloc of `base_url`,
`can_fetch` allows it, and it is not already visited (set insertion makes
re-adding a pending url a no-op). -/
def admitLinks (rp : RobotsRules) (ua bn : PyStr) (visited : List PyStr) :
    List PyStr → List PyStr → Option (List PyStr)
  | tv, [] => some tv
  | tv, link :: restLinks =>
    match normalize_url link with
    | none => none
    | some nl =>
      match urlparse nl with
      | none => none
      | some pnl =>
        if pnl.netloc = bn ∧ can_fetch rp ua nl = true then
          if nl ∉ visited ∧ nl ∉ tv then
            admitLinks rp ua bn visited (tv ++ [nl]) restLinks
          else admitLinks rp ua bn visited tv restLinks
        else admitLinks rp ua bn visited tv restLinks

/-- One iteration of the `while to_visit` loop of `extract_links`: pop a
url (the element chosen by `pick`), renormalize it, skip it if already
visited or not https, call `fetch_article` (logged), and on success mark
it visited and admit its links.  `none` models an exception propagating
out of the loop (a url whose parse raises `ValueError`). -/
def crawlStep (web : PyStr → Option (List PyStr)) (rp : RobotsRules)
    (ua base_url : PyStr) (pick : Nat) (s : CrawlState) : Option CrawlState :=
  match s.toVisit with
  | [] => some s
  | _ :: _ =>
    let i := pick % s.toVisit.length
    let url0 := s.toVisit.getD i []
    let rest := s.toVisit.eraseIdx i
    match normalize_url url0 with
    | none => none
    | some url =>
      if url ∈ s.visited then some ⟨s.visited, rest, s.log⟩
      else
        match urlparse url with
        | none => none
        | some pu =>
          if pu.scheme ≠ "https".data then some ⟨s.visited, rest, s.log⟩
          else
            match web url with
            | none => some ⟨s.visited, rest, s.log ++ [(url, false)]⟩
            | some links =>
              match urlparse base_url with
              | none => none
              | some pb =>
                match admitLinks rp ua pb.netloc (s.visited ++ [url]) rest links with
                | none => none
                | some tv => some ⟨s.visited ++ [url], tv, s.log ++ [(url, true)]⟩

/-- The `while to_visit` loop, run for at most `fuel` iterations (stopping
early when `to_visit` is empty); the state after `fuel` iterations is a
faithful prefix of the Python execution under the pop order `oracle`. -/
def crawlRun (web : PyStr → Option (List PyStr)) (rp : RobotsRules)
    (ua base_url : PyStr) (oracle : Nat → Nat) : Nat → CrawlState → Option CrawlState
  | 0, s => some s
  | fuel + 1, s =>
    match s.toVisit with
    | [] => some s
    | _ :: _ => (crawlStep web rp ua base_url (oracle fuel) s).bind
        (crawlRun web rp ua base_url oracle fuel)

/-- The initial state of `extract_links`: `visited` empty and `to_visit`
seeded with the normalized base url. -/
def crawlInit (base_url : PyStr) : Option CrawlState :=
  (normalize_url base_url).map fun seed => ⟨[], [seed], []⟩

/-!  Claim C1.  The claim states that `fetch_robots` fails open on every
error, returning a ruleset whose `can_fetch` answers true for every URL.
The code does return without raising, but CPython's `RobotFileParser`
fails open only for 4xx HTTP errors other than 401/403: after a
connection failure or undecodable content (`read` raises, `fetch_robots`
only logs) `last_checked` is still 0 and `can_fetch` denies every URL, and
401/403 set `disallow_all`. -/

/-- Claim C1 is false as stated: after a connection failure during the
robots.txt fetch (`RobotsFetch.raised`), and likewise after an HTTP 401,
the ruleset returned by `fetch_robots` answers false — not true — for a
concrete URL. -/
theorem c1_counterexample :
    can_fetch (fetch_robots RobotsFetch.raised)
      "Mozilla/5.0".data "https://example.com/page".data = false ∧
    can_fetch (fetch_robots (RobotsFetch.httpError 401))
      "Mozilla/5.0".data "https://example.com/page".data = false := by
  constructor
  · rfl
  · rfl

/-- Claim C1 (amended): `fetch_robots` is total (never raises), and the
returned ruleset allows every URL exactly when the robots.txt fetch failed
with an HTTP error code in 400–499 other than 401 and 403; a connection
failure or unparsable content, a 401 or 403, and any other error code all
yield a ruleset that denies every URL. -/
theorem c1_amended (ua url : PyStr) (code : Nat) :
    can_fetch (fetch_robots RobotsFetch.raised) ua url = false ∧
    can_fetch (fetch_robots (RobotsFetch.httpError 401)) ua url = false ∧
    can_fetch (fetch_robots (RobotsFetch.httpError 403)) ua url = false ∧
    (code ≠ 401 → code ≠ 403 → 400 ≤ code → code < 500 →
      can_fetch (fetch_robots (RobotsFetch.httpError code)) ua url = true) ∧
    (code < 400 ∨ 500 ≤ code →
      can_fetch (fetch_robots (RobotsFetch.httpError code)) ua url = false) := by
  refine ⟨rfl, rfl, rfl, ?_, ?_⟩
  · intro h1 h3 h4 h5
    have hne : ¬ (code = 401 ∨ code = 403) := by omega
    simp only [fetch_robots, if_neg hne, if_pos (And.intro h4 h5)]
    rfl
  · intro h
    have hne : ¬ (code = 401 ∨ code = 403) := by omega
    have hno : ¬ (400 ≤ code ∧ code < 500) := by omega
    simp only [fetch_robots, if_neg hne, if_neg hno]
    rfl

/-- Witness for the amended claim C1 at the concrete code 404: a missing
robots.txt yields an allow-everything ruleset. -/
theorem c1_amended_witness :
    can_fetch (fetch_robots (RobotsFetch.httpError 404))
      "Mozilla/5.0".data "https://example.com/page".data = true :=
  (c1_amended "Mozilla/5.0".data "https://example.com/page".data 404).2.2.2.1
    (by decide) (by decide) (by decide) (by decide)

/-!  Claim C4.  Priority.  The claim takes pathDepth to be the number of
path segments and asserts that a path of `/` gets priority 1.0; the code
counts slash characters (`path.count("/")`), and `urlparse("https://host/")`
has path `/` with one slash, so the priority is 0.9, not 1.0.  With
pathDepth read as the number of slash characters everything else holds. -/

/-- Rounding `1.0 - 0.1 * k` to one decimal place is exact: the argument
is the rational `(10 - k)/10` and `roundTenth` returns it unchanged. -/
theorem roundTenth_one_sub (k : ℕ) :
    roundTenth (1 - (k : ℚ) / 10) = ((10 - (k : ℤ) : ℤ) : ℚ) / 10 := by
  unfold roundTenth
  have h : ((1 : ℚ) - (k : ℚ) / 10) * 10 = ((10 - (k : ℤ) : ℤ) : ℚ) := by
    push_cast
    ring
  rw [h, round_intCast]

/-- Claim C4 is false as stated: the URL `https://host/` has path `/`
(zero path segments), yet `determine_priority` gives 0.9, not 1.0,
because the code counts slash characters rather than segments. -/
theorem c4_counterexample :
    determine_priority "https://host/".data = some (9 / 10) ∧ ((9 : ℚ) / 10) ≠ 1 := by
  constructor
  · have hp : urlparse "https://host/".data =
        some ⟨"https".data, "host".data, "/".data, [], [], []⟩ := by decide
    have hc : ("/".data).count '/' = 1 := by decide
    simp only [determine_priority, hp, Option.map_some', hc]
    have h1 : roundTenth (1 - ((1 : ℕ) : ℚ) / 10) = ((10 - ((1 : ℕ) : ℤ) : ℤ) : ℚ) / 10 :=
      roundTenth_one_sub 1
    norm_num at h1 ⊢
    rw [h1]
    norm_num
  · norm_num

/-- Claim C4 (amended): `determine_priority url` is
`max(0.1, round(1.0 - 0.1 * k, 1))` where `k` is the number of slash
characters in the parsed path (not the number of path segments); the
rounding is exact, the value always lies in [0.1, 1.0], it depends on
nothing but the path, a URL with empty path gets 1.0, and nine or more
slashes (hence any twelve-segment path) clamp to 0.1. -/
theorem c4_amended (u : PyStr) (pr : ParseResult) (h : urlparse u = some pr) :
    determine_priority u =
      some (max (1 / 10) (((10 - (pr.path.count '/' : ℤ) : ℤ) : ℚ) / 10)) ∧
    (∀ q, determine_priority u = some q → 1 / 10 ≤ q ∧ q ≤ 1) ∧
    (∀ v prv, urlparse v = some prv → prv.path = pr.path →
      determine_priority v = determine_priority u) ∧
    (pr.path = [] → determine_priority u = some 1) ∧
    (9 ≤ pr.path.count '/' → determine_priority u = some (1 / 10)) := by
  have hval : determine_priority u =
      some (max (1 / 10) (((10 - (pr.path.count '/' : ℤ) : ℤ) : ℚ) / 10)) := by
    simp only [determine_priority, h, Option.map_some', roundTenth_one_sub]
  refine ⟨hval, ?_, ?_, ?_, ?_⟩
  · intro q hq
    rw [hval] at hq
    have hq' : q = max (1 / 10) (((10 - (pr.path.count '/' : ℤ) : ℤ) : ℚ) / 10) := by
      exact (Option.some_injective ℚ hq).symm
    subst hq'
    constructor
    · exact le_max_left _ _
    · have h2 : (((10 - (pr.path.count '/' : ℤ) : ℤ) : ℚ) / 10) ≤ 1 := by
        have : ((10 - (pr.path.count '/' : ℤ) : ℤ) : ℚ) ≤ 10 := by
          have : (0 : ℤ) ≤ (pr.path.count '/' : ℤ) := Int.ofNat_nonneg _
          push_cast
          linarith
        linarith
      have h3 : ((1 : ℚ) / 10) ≤ 1 := by norm_num
      exact max_le h3 h2
  · intro v prv hv hpath
    simp only [determine_priority, h, hv, Option.map_some', hpath]
  · intro hnil
    rw [hval, hnil]
    norm_num
  · intro h9
    rw [hval]
    have h2 : (((10 - (pr.path.count '/' : ℤ) : ℤ) : ℚ) / 10) ≤ 1 / 10 := by
      have : ((10 - (pr.path.count '/' : ℤ) : ℤ) : ℚ) ≤ 1 := by
        have h99 : (9 : ℚ) ≤ ((pr.path.count '/' : ℕ) : ℚ) := by exact_mod_cast h9
        push_cast
        linarith
      linarith
    rw [max_eq_left h2]

/-- Witness for the amended claim C4: the URL `https://host` parses with an
empty path and receives priority exactly 1.0. -/
theorem c4_amended_witness :
    determine_priority "https://host".data = some 1 :=
  (c4_amended "https://host".data ⟨"https".data, "host".data, [], [], [], []⟩
    (by decide)).2.2.2.1 (by decide)

/-!  Claim C8.  Retry with exponential backoff.  The code retries only on a
`requests.RequestException`, which `raise_for_status` raises for 4xx/5xx
codes; a response with a non-2xx code outside that range (for example 304)
raises nothing, so the first attempt falls through to the Content-Type
check and the function returns after a single GET — not three. -/

/-- Claim C8 is false as stated: against an endpoint that always answers
304 (a non-2xx status) with a non-HTML content type, `fetch_article` with
retries=3 performs exactly one GET and no sleeps, then returns the failure
result. -/
theorem c8_counterexample :
    fetch_article (fun _ => AttemptOutcome.resp 304 "text/plain".data) 3 =
      ([FetchEvent.get], none) ∧
    ¬ (200 ≤ 304 ∧ 304 < 300) := by
  constructor
  · rfl
  · decide

/-- Claim C8 (amended): against an endpoint whose every request fails with
a transport-level error or a 4xx/5xx status, `fetch_article` with
retries=3 makes exactly 3 GET attempts, sleeping 2^attempt seconds after
each failed attempt (1s, 2s, and a final 4s before returning), and returns
the failure result `None`. -/
theorem c8_amended (outcomes : Nat → AttemptOutcome)
    (hfail : ∀ n, outcomes n = AttemptOutcome.exc ∨
      ∃ st ct, outcomes n = AttemptOutcome.resp st ct ∧ 400 ≤ st ∧ st < 600) :
    fetch_article outcomes 3 =
      ([FetchEvent.get, FetchEvent.sleep 1, FetchEvent.get, FetchEvent.sleep 2,
        FetchEvent.get, FetchEvent.sleep 4], none) := by
  have step : ∀ n rem, fetchAttempts outcomes n (rem + 1) =
      (FetchEvent.get :: FetchEvent.sleep (2 ^ n) :: (fetchAttempts outcomes (n + 1) rem).1,
        (fetchAttempts outcomes (n + 1) rem).2) := by
    intro n rem
    rcases hfail n with hexc | ⟨st, ct, hresp, h4, h6⟩
    · rw [fetchAttempts, hexc]
    · rw [fetchAttempts, hresp]
      have : raise_for_status st = true := by
        simp only [raise_for_status, Bool.and_eq_true, decide_eq_true_eq]
        omega
      simp [this]
  show fetchAttempts outcomes 0 3 = _
  rw [step 0 2, step 1 1, step 2 0, fetchAttempts]
  rfl

/-- Witness for the amended claim C8: an endpoint failing with a transport
error on every attempt produces the three-attempt trace. -/
theorem c8_amended_witness :
    fetch_article (fun _ => AttemptOutcome.exc) 3 =
      ([FetchEvent.get, FetchEvent.sleep 1, FetchEvent.get, FetchEvent.sleep 2,
        FetchEvent.get, FetchEvent.sleep 4], none) :=
  c8_amended (fun _ => AttemptOutcome.exc) (fun _ => Or.inl rfl)

/-!  Claims C2, C3, C6 are invariants of the crawl loop.  The next lemmas
characterise one loop iteration and propagate invariants along a run. -/

/-- Specification of the link-admission loop: every url in the resulting
pending list was already pending, or was normalized from some link, passed
the same-netloc check against `bn` and the `can_fetch` check, and was not
in `visited`. -/
theorem admitLinks_spec (rp : RobotsRules) (ua bn : PyStr) (visited : List PyStr) :
    ∀ links tv tv1, admitLinks rp ua bn visited tv links = some tv1 →
      ∀ u ∈ tv1, u ∈ tv ∨
        ((∃ pu, urlparse u = some pu ∧ pu.netloc = bn) ∧ can_fetch rp ua u = true ∧
          (∃ l, normalize_url l = some u) ∧ u ∉ visited) := by
  intro links
  induction links with
  | nil =>
    intro tv tv1 h u hu
    simp only [admitLinks] at h
    cases h
    exact Or.inl hu
  | cons l ls ih =>
    intro tv tv1 h u hu
    simp only [admitLinks] at h
    split at h
    · cases h
    rename_i nl hn
    split at h
    · cases h
    rename_i pnl hp
    split at h
    · rename_i hcond
      split at h
      · rename_i hmem
        rcases ih _ _ h u hu with hu1 | hprops
        · rcases List.mem_append.mp hu1 with h2 | h2
          · exact Or.inl h2
          · have heq : u = nl := by simpa using h2
            subst heq
            exact Or.inr ⟨⟨pnl, hp, hcond.1⟩, hcond.2, ⟨l, hn⟩, hmem.1⟩
        · exact Or.inr hprops
      · rcases ih _ _ h u hu with h2 | h2
        · exact Or.inl h2
        · exact Or.inr h2
    · rcases ih _ _ h u hu with h2 | h2
      · exact Or.inl h2
      · exact Or.inr h2

/-- Case analysis of one crawl iteration: either the frontier is empty and
the state is unchanged, or a pending url `url0` is popped and renormalized
to `url`, after which the iteration (a) skips it (already visited, or not
https), (b) logs a failed fetch, or (c) logs a successful fetch, marks
`url` visited and admits the page's links. -/
theorem crawlStep_cases (web : PyStr → Option (List PyStr)) (rp : RobotsRules)
    (ua base_url : PyStr) (pick : Nat) (s s1 : CrawlState)
    (h : crawlStep web rp ua base_url pick s = some s1) :
    (s.toVisit = [] ∧ s1 = s) ∨
    (∃ url0 url,
      url0 ∈ s.toVisit ∧
      normalize_url url0 = some url ∧
      (let rest := s.toVisit.eraseIdx (pick % s.toVisit.length)
       (s1 = ⟨s.visited, rest, s.log⟩ ∧
          (url ∈ s.visited ∨ ∃ pu, urlparse url = some pu ∧ pu.scheme ≠ "https".data)) ∨
       (∃ pu, urlparse url = some pu ∧ pu.scheme = "https".data ∧ url ∉ s.visited ∧
        (let rest := s.toVisit.eraseIdx (pick % s.toVisit.length)
         (web url = none ∧ s1 = ⟨s.visited, rest, s.log ++ [(url, false)]⟩) ∨
         (∃ links pb tv, web url = some links ∧ urlparse base_url = some pb ∧
            admitLinks rp ua pb.netloc (s.visited ++ [url]) rest links = some tv ∧
            s1 = ⟨s.visited ++ [url], tv, s.log ++ [(url, true)]⟩))))) := by
  rcases htv : s.toVisit with _ | ⟨a, l⟩
  · left
    simp only [crawlStep, htv] at h
    cases h
    exact ⟨rfl, rfl⟩
  · right
    simp only [crawlStep, htv] at h
    split at h
    · cases h
    rename_i url hn
    have hmem : (a :: l).getD (pick % (a :: l).length) [] ∈ (a :: l) := by
      have hlt : pick % (a :: l).length < (a :: l).length :=
        Nat.mod_lt _ (by simp)
      rw [List.getD_eq_getElem _ _ hlt]
      exact List.getElem_mem hlt
    refine ⟨(a :: l).getD (pick % (a :: l).length) [], url, hmem, hn, ?_⟩
    split at h
    · rename_i hv
      cases h
      exact Or.inl ⟨rfl, Or.inl hv⟩
    rename_i hv
    split at h
    · cases h
    rename_i pu hp
    split at h
    · rename_i hs
      cases h
      exact Or.inl ⟨rfl, Or.inr ⟨pu, hp, hs⟩⟩
    rename_i hs
    push_neg at hs
    split at h
    · rename_i hw
      cases h
      exact Or.inr ⟨pu, hp, hs, hv, Or.inl ⟨hw, rfl⟩⟩
    rename_i links hw
    split at h
    · cases h
    rename_i pb hb
    split at h
    · cases h
    rename_i tv ha
    cases h
    exact Or.inr ⟨pu, hp, hs, hv, Or.inr ⟨links, pb, tv, hw, hb, ha, rfl⟩⟩

/-- Propagation of an invariant preserved by `crawlStep` along `crawlRun`. -/
theorem crawlRun_inv (web : PyStr → Option (List PyStr)) (rp : RobotsRules)
    (ua base_url : PyStr) (oracle : Nat → Nat) (P : CrawlState → Prop)
    (hstep : ∀ pick s s1, P s → crawlStep web rp ua base_url pick s = some s1 → P s1) :
    ∀ fuel s s1, P s → crawlRun web rp ua base_url oracle fuel s = some s1 → P s1 := by
  intro fuel
  induction fuel with
  | zero =>
    intro s s1 hP h
    rw [crawlRun] at h
    cases h
    exact hP
  | succ n ih =>
    intro s s1 hP h
    rw [crawlRun] at h
    rcases htv : s.toVisit with _ | ⟨a, l⟩
    · simp only [htv] at h
      cases h
      exact hP
    · simp only [htv] at h
      rcases Option.bind_eq_some.mp h with ⟨mid, hmid, hrest⟩
      exact ih mid s1 (hstep (oracle n) s mid hP hmid) hrest

/-- Claim C2 is false as stated: with a ruleset that robots.txt rules deny
for every URL (`can_fetch` answers false everywhere, in particular for the
seed), one crawl iteration still passes the seed URL to `fetch_article`,
because `extract_links` never consults robots for the popped seed. -/
theorem c2_counterexample :
    can_fetch (fetch_robots (RobotsFetch.ok fun _ _ => false)) "Mozilla/5.0".data
      "https://h/a".data = false ∧
    crawlInit "https://h/a".data = some ⟨[], ["https://h/a".data], []⟩ ∧
    crawlRun (fun _ => none) (fetch_robots (RobotsFetch.ok fun _ _ => false))
      "Mozilla/5.0".data "https://h/a".data (fun _ => 0) 1 ⟨[], ["https://h/a".data], []⟩ =
      some ⟨[], [], [("https://h/a".data, false)]⟩ := by
  refine ⟨rfl, by decide, by decide⟩

/-- Claim C2 (amended): in every crawl configuration, every URL passed to
`fetch_article` is the renormalization of either the seeded URL — which is
fetched without any robots check — or of a link URL for which
`RobotsPolicy.canFetch` returned true when it was admitted to the
frontier; in particular, when `can_fetch` denies every URL, every fetched
URL is a renormalization of the seed. -/
theorem c2_amended (web : PyStr → Option (List PyStr)) (rp : RobotsRules)
    (ua base_url seed : PyStr) (oracle : Nat → Nat) (fuel : Nat) (s : CrawlState)
    (hinit : crawlInit base_url = some ⟨[], [seed], []⟩)
    (hrun : crawlRun web rp ua base_url oracle fuel ⟨[], [seed], []⟩ = some s) :
    (∀ e ∈ s.log, ∃ v, normalize_url v = some e.1 ∧
      (v = seed ∨ can_fetch rp ua v = true)) ∧
    ((∀ v, can_fetch rp ua v = false) → ∀ e ∈ s.log, normalize_url seed = some e.1) := by
  have hP : (∀ u ∈ s.toVisit, u = seed ∨ can_fetch rp ua u = true) ∧
      (∀ e ∈ s.log, ∃ v, normalize_url v = some e.1 ∧
        (v = seed ∨ can_fetch rp ua v = true)) := by
    refine crawlRun_inv web rp ua base_url oracle
      (fun st => (∀ u ∈ st.toVisit, u = seed ∨ can_fetch rp ua u = true) ∧
        (∀ e ∈ st.log, ∃ v, normalize_url v = some e.1 ∧
          (v = seed ∨ can_fetch rp ua v = true)))
      ?_ fuel _ s ⟨by simp, by simp⟩ hrun
    intro pick st st1 hPst h
    rcases crawlStep_cases web rp ua base_url pick st st1 h with ⟨_, h1⟩ | hbig
    · subst h1
      exact hPst
    rcases hbig with ⟨url0, url, hmem0, hn, hcase⟩
    have hrest : ∀ u ∈ st.toVisit.eraseIdx (pick % st.toVisit.length), u ∈ st.toVisit :=
      fun u hu => (List.eraseIdx_sublist _ _).subset hu
    have hurl0 := hPst.1 url0 hmem0
    rcases hcase with ⟨h1, _⟩ | ⟨pu, hp, hs, hv, hcase2⟩
    · subst h1
      exact ⟨fun u hu => hPst.1 u (hrest u hu), hPst.2⟩
    rcases hcase2 with ⟨hw, h1⟩ | ⟨links, pb, tv, hw, hb, ha, h1⟩
    · subst h1
      refine ⟨fun u hu => hPst.1 u (hrest u hu), ?_⟩
      intro e he
      rcases List.mem_append.mp he with he1 | he1
      · exact hPst.2 e he1
      · have : e = (url, false) := by simpa using he1
        subst this
        exact ⟨url0, hn, hurl0⟩
    · subst h1
      refine ⟨?_, ?_⟩
      · intro u hu
        rcases admitLinks_spec rp ua pb.netloc _ links _ _ ha u hu with hu1 | hprops
        · exact hPst.1 u (hrest u hu1)
        · exact Or.inr hprops.2.1
      · intro e he
        rcases List.mem_append.mp he with he1 | he1
        · exact hPst.2 e he1
        · have : e = (url, true) := by simpa using he1
          subst this
          exact ⟨url0, hn, hurl0⟩
  refine ⟨hP.2, ?_⟩
  intro hdeny e he
  rcases hP.2 e he with ⟨v, hv, hvs | hvc⟩
  · subst hvs
    exact hv
  · rw [hdeny v] at hvc
    cases hvc

/-- Witness for the amended claim C2 at a concrete crawl: a one page site
whose fetch fails; the only logged fetch is a renormalization of the
seed. -/
theorem c2_amended_witness :
    ∃ v, normalize_url v = some "https://h/a".data ∧
      (v = "https://h/a".data ∨
        can_fetch (fetch_robots (RobotsFetch.ok fun _ _ => false)) "Mozilla/5.0".data v = true) :=
  (c2_amended (fun _ => none) (fetch_robots (RobotsFetch.ok fun _ _ => false))
    "Mozilla/5.0".data "https://h/a".data "https://h/a".data (fun _ => 0) 1
    ⟨[], [], [("https://h/a".data, false)]⟩ (by decide) (by decide)).1
    ("https://h/a".data, false) (by decide)

/-- Claim C3 is false as stated: in the crawl of a three page site where
page `a` links to `b` and `c`, page `c` links back to `b`, and `b`'s fetch
always fails, the URL `https://h/b` is passed to `fetch_article` twice —
it is not recorded as visited when its fetch fails, so its rediscovery via
`c` fetches it again. -/
theorem c3_counterexample :
    crawlRun
      (fun u => if u = "https://h/a".data then some ["https://h/b".data, "https://h/c".data]
        else if u = "https://h/c".data then some ["https://h/b".data] else none)
      (fetch_robots (RobotsFetch.ok fun _ _ => true)) "Mozilla/5.0".data "https://h/a".data
      (fun _ => 0) 4 ⟨[], ["https://h/a".data], []⟩ =
      some ⟨["https://h/a".data, "https://h/c".data], [],
        [("https://h/a".data, true), ("https://h/b".data, false),
         ("https://h/c".data, true), ("https://h/b".data, false)]⟩ ∧
    ([("https://h/a".data, true), ("https://h/b".data, false),
      ("https://h/c".data, true), ("https://h/b".data, false)].map Prod.fst).count
        "https://h/b".data = 2 := by
  constructor
  · decide
  · decide

/-- Claim C3 (amended): each normalized URL is passed to `fetch_article` at
most once among fetches that succeed (the successful entries of the fetch
log are duplicate-free), but a URL whose fetch fails is not recorded as
visited, so it can be fetched again when rediscovered. -/
theorem c3_amended (web : PyStr → Option (List PyStr)) (rp : RobotsRules)
    (ua base_url seed : PyStr) (oracle : Nat → Nat) (fuel : Nat) (s : CrawlState)
    (hinit : crawlInit base_url = some ⟨[], [seed], []⟩)
    (hrun : crawlRun web rp ua base_url oracle fuel ⟨[], [seed], []⟩ = some s) :
    ((s.log.filter (fun e => e.2)).map Prod.fst).Nodup ∧
    (∀ u, (u, false) ∈ s.log → u ∉ s.visited) := by
  have hP : s.visited.Nodup ∧
      (∀ u, (u, true) ∈ s.log → u ∈ s.visited) ∧
      ((s.log.filter (fun e => e.2)).map Prod.fst).Nodup ∧
      (∀ u, (u, false) ∈ s.log → web u = none) ∧
      (∀ u ∈ s.visited, ∃ links, web u = some links) := by
    refine crawlRun_inv web rp ua base_url oracle
      (fun st => st.visited.Nodup ∧
        (∀ u, (u, true) ∈ st.log → u ∈ st.visited) ∧
        ((st.log.filter (fun e => e.2)).map Prod.fst).Nodup ∧
        (∀ u, (u, false) ∈ st.log → web u = none) ∧
        (∀ u ∈ st.visited, ∃ links, web u = some links))
      ?_ fuel _ s ⟨by simp, by simp, by simp, by simp, by simp⟩ hrun
    intro pick st st1 hPst h
    obtain ⟨hnd, hlogvis, hsnd, hfail, hvisweb⟩ := hPst
    rcases crawlStep_cases web rp ua base_url pick st st1 h with ⟨_, h1⟩ | hbig
    · subst h1
      exact ⟨hnd, hlogvis, hsnd, hfail, hvisweb⟩
    rcases hbig with ⟨url0, url, hmem0, hn, hcase⟩
    rcases hcase with ⟨h1, _⟩ | ⟨pu, hp, hs, hv, hcase2⟩
    · subst h1
      exact ⟨hnd, hlogvis, hsnd, hfail, hvisweb⟩
    rcases hcase2 with ⟨hw, h1⟩ | ⟨links, pb, tv, hw, hb, ha, h1⟩
    · subst h1
      refine ⟨hnd, ?_, ?_, ?_, hvisweb⟩
      · intro u hu
        rcases List.mem_append.mp hu with hu1 | hu1
        · exact hlogvis u hu1
        · simp at hu1
      · simpa [List.filter_append] using hsnd
      · intro u hu
        rcases List.mem_append.mp hu with hu1 | hu1
        · exact hfail u hu1
        · have : u = url := by simpa using hu1
          subst this
          exact hw
    · subst h1
      have hnotsucc : url ∉ (st.log.filter (fun e => e.2)).map Prod.fst := by
        intro hin
        rcases List.mem_map.mp hin with ⟨e, he, hefst⟩
        have he2 := List.of_mem_filter he
        have he1 := List.mem_of_mem_filter he
        have : e = (url, true) := by
          rcases e with ⟨e1, e2⟩
          simp at he2 hefst
          simp [he2, hefst]
        subst this
        exact hv (hlogvis url he1)
      refine ⟨?_, ?_, ?_, ?_, ?_⟩
      · rw [List.nodup_append]
        exact ⟨hnd, List.nodup_singleton url, by
          intro x hx hx2
          have : x = url := by simpa using hx2
          subst this
          exact hv hx⟩
      · intro u hu
        rcases List.mem_append.mp hu with hu1 | hu1
        · exact List.mem_append_left _ (hlogvis u hu1)
        · have : u = url := by simpa using hu1
          subst this
          exact List.mem_append_right _ (by simp)
      · rw [List.filter_append, List.map_append, List.nodup_append]
        refine ⟨hsnd, by simp, ?_⟩
        intro x hx hx2
        have : x = url := by simpa using hx2
        subst this
        exact hnotsucc hx
      · intro u hu
        rcases List.mem_append.mp hu with hu1 | hu1
        · exact hfail u hu1
        · simp at hu1
      · intro u hu
        rcases List.mem_append.mp hu with hu1 | hu1
        · exact hvisweb u hu1
        · have : u = url := by simpa using hu1
          subst this
          exact ⟨links, hw⟩
  refine ⟨hP.2.2.1, ?_⟩
  intro u hfalse hvis
  rcases hP.2.2.2.2 u hvis with ⟨links, hlinks⟩
  rw [hP.2.2.2.1 u hfalse] at hlinks
  cases hlinks

/-- Witness for the amended claim C3 at a concrete crawl (the same site as
the counterexample): the successful entries of the log are exactly `a` and
`c`, each once, and the failing URL `b` is not in the visited set. -/
theorem c3_amended_witness :
    (([( "https://h/a".data, true), ("https://h/b".data, false),
       ("https://h/c".data, true), ("https://h/b".data, false)].filter
        (fun e => e.2)).map Prod.fst).Nodup ∧
    (∀ u, (u, false) ∈ ([("https://h/a".data, true), ("https://h/b".data, false),
       ("https://h/c".data, true), ("https://h/b".data, false)] : List (PyStr × Bool)) →
      u ∉ ["https://h/a".data, "https://h/c".data]) :=
  c3_amended
    (fun u => if u = "https://h/a".data then some ["https://h/b".data, "https://h/c".data]
      else if u = "https://h/c".data then some ["https://h/b".data] else none)
    (fetch_robots (RobotsFetch.ok fun _ _ => true)) "Mozilla/5.0".data "https://h/a".data
    "https://h/a".data (fun _ => 0) 4
    ⟨["https://h/a".data, "https://h/c".data], [],
      [("https://h/a".data, true), ("https://h/b".data, false),
       ("https://h/c".data, true), ("https://h/b".data, false)]⟩
    (by decide) (by decide)

/-- Claim C6 is false as stated: a same-host link with scheme `http` (not
`https`) is admitted to the pending set — after one iteration of a crawl
whose seed page links to `http://h/x`, that URL is in `to_visit`, although
its scheme is not https.  The https filter is applied only later, at pop
time, before fetching. -/
theorem c6_counterexample :
    crawlRun (fun u => if u = "https://h/a".data then some ["http://h/x".data] else none)
      (fetch_robots (RobotsFetch.ok fun _ _ => true)) "Mozilla/5.0".data "https://h/a".data
      (fun _ => 0) 1 ⟨[], ["https://h/a".data], []⟩ =
      some ⟨["https://h/a".data], ["http://h/x".data], [("https://h/a".data, true)]⟩ ∧
    urlparse "http://h/x".data = some ⟨"http".data, "h".data, "/x".data, [], [], []⟩ ∧
    "http".data ≠ "https".data := by
  refine ⟨by decide, by decide, by decide⟩

/-- Claim C6 (amended): every URL admitted to the pending set after the
seed passes the same-host filter (its parsed netloc equals the netloc of
the start URL) and the `can_fetch` filter, but not necessarily the https
filter, which is applied at pop time instead: every URL actually passed to
`fetch_article` has scheme exactly https. -/
theorem c6_amended (web : PyStr → Option (List PyStr)) (rp : RobotsRules)
    (ua base_url seed : PyStr) (oracle : Nat → Nat) (fuel : Nat) (s : CrawlState)
    (hinit : crawlInit base_url = some ⟨[], [seed], []⟩)
    (hrun : crawlRun web rp ua base_url oracle fuel ⟨[], [seed], []⟩ = some s) :
    (∀ u ∈ s.toVisit, u = seed ∨
      ((∃ pu pb, urlparse u = some pu ∧ urlparse base_url = some pb ∧
        pu.netloc = pb.netloc) ∧ can_fetch rp ua u = true)) ∧
    (∀ e ∈ s.log, ∃ pe, urlparse e.1 = some pe ∧ pe.scheme = "https".data) := by
  refine crawlRun_inv web rp ua base_url oracle
    (fun st => (∀ u ∈ st.toVisit, u = seed ∨
        ((∃ pu pb, urlparse u = some pu ∧ urlparse base_url = some pb ∧
          pu.netloc = pb.netloc) ∧ can_fetch rp ua u = true)) ∧
      (∀ e ∈ st.log, ∃ pe, urlparse e.1 = some pe ∧ pe.scheme = "https".data))
    ?_ fuel _ s ⟨by simp, by simp⟩ hrun
  intro pick st st1 hPst h
  rcases crawlStep_cases web rp ua base_url pick st st1 h with ⟨_, h1⟩ | hbig
  · subst h1
    exact hPst
  rcases hbig with ⟨url0, url, hmem0, hn, hcase⟩
  have hrest : ∀ u ∈ st.toVisit.eraseIdx (pick % st.toVisit.length), u ∈ st.toVisit :=
    fun u hu => (List.eraseIdx_sublist _ _).subset hu
  rcases hcase with ⟨h1, _⟩ | ⟨pu, hp, hs, hv, hcase2⟩
  · subst h1
    exact ⟨fun u hu => hPst.1 u (hrest u hu), hPst.2⟩
  rcases hcase2 with ⟨hw, h1⟩ | ⟨links, pb, tv, hw, hb, ha, h1⟩
  · subst h1
    refine ⟨fun u hu => hPst.1 u (hrest u hu), ?_⟩
    intro e he
    rcases List.mem_append.mp he with he1 | he1
    · exact hPst.2 e he1
    · have : e = (url, false) := by simpa using he1
      subst this
      exact ⟨pu, hp, hs⟩
  · subst h1
    refine ⟨?_, ?_⟩
    · intro u hu
      rcases admitLinks_spec rp ua pb.netloc _ links _ _ ha u hu with hu1 | hprops
      · exact hPst.1 u (hrest u hu1)
      · rcases hprops.1 with ⟨pux, hpux, hnet⟩
        exact Or.inr ⟨⟨pux, pb, hpux, hb, hnet⟩, hprops.2.1⟩
    · intro e he
      rcases List.mem_append.mp he with he1 | he1
      · exact hPst.2 e he1
      · have : e = (url, true) := by simpa using he1
        subst this
        exact ⟨pu, hp, hs⟩

/-- Witness for the amended claim C6 at a concrete crawl: after one
iteration of the c6 counterexample crawl, the pending URL `http://h/x`
satisfies the same-host and robots filters, and the one fetched URL has
scheme https. -/
theorem c6_amended_witness :
    (∀ u ∈ (["http://h/x".data] : List PyStr), u = "https://h/a".data ∨
      ((∃ pu pb, urlparse u = some pu ∧ urlparse "https://h/a".data = some pb ∧
        pu.netloc = pb.netloc) ∧
        can_fetch (fetch_robots (RobotsFetch.ok fun _ _ => true)) "Mozilla/5.0".data u = true)) ∧
    (∀ e ∈ ([("https://h/a".data, true)] : List (PyStr × Bool)),
      ∃ pe, urlparse e.1 = some pe ∧ pe.scheme = "https".data) :=
  c6_amended (fun u => if u = "https://h/a".data then some ["http://h/x".data] else none)
    (fetch_robots (RobotsFetch.ok fun _ _ => true)) "Mozilla/5.0".data "https://h/a".data
    "https://h/a".data (fun _ => 0) 1
    ⟨["https://h/a".data], ["http://h/x".data], [("https://h/a".data, true)]⟩
    (by decide) (by decide)

/-!  Claims C7 and C10: sitemap entry order and the in-place sort of the
caller's list.  The lemmas below establish the order properties of the
Python sort key. -/

/-- Characters with equal code points are equal. -/
theorem char_toNat_inj (a b : Char) (h : a.toNat = b.toNat) : a = b :=
  Char.eq_of_val_eq (UInt32.ext h)

/-- Python string comparison is irreflexive. -/
theorem pyStrLt_irrefl : ∀ a : PyStr, pyStrLt a a = false
  | [] => rfl
  | c :: cs => by
    simp only [pyStrLt, if_pos rfl]
    exact pyStrLt_irrefl cs

/-- Python string comparison is asymmetric. -/
theorem pyStrLt_asymm : ∀ a b : PyStr, pyStrLt a b = true → pyStrLt b a = false := by
  intro a
  induction a with
  | nil =>
    intro b h
    cases b with
    | nil => simp [pyStrLt] at h
    | cons d ds => rfl
  | cons c cs ih =>
    intro b h
    cases b with
    | nil => simp [pyStrLt] at h
    | cons d ds =>
      by_cases hcd : c = d
      · subst hcd
        simp only [pyStrLt, if_pos rfl] at h ⊢
        exact ih ds h
      · have hdc : d ≠ c := fun hh => hcd hh.symm
        simp only [pyStrLt, if_neg hcd, decide_eq_true_eq] at h
        simp only [pyStrLt, if_neg hdc, decide_eq_false_iff_not]
        omega

/-- Python string comparison is total. -/
theorem pyStrLt_total : ∀ a b : PyStr, a = b ∨ pyStrLt a b = true ∨ pyStrLt b a = true := by
  intro a
  induction a with
  | nil =>
    intro b
    cases b with
    | nil => exact Or.inl rfl
    | cons d ds => exact Or.inr (Or.inl rfl)
  | cons c cs ih =>
    intro b
    cases b with
    | nil => exact Or.inr (Or.inr rfl)
    | cons d ds =>
      by_cases hcd : c = d
      · subst hcd
        rcases ih ds with h | h | h
        · exact Or.inl (by rw [h])
        · exact Or.inr (Or.inl (by simp [pyStrLt, h]))
        · exact Or.inr (Or.inr (by simp [pyStrLt, h]))
      · have hdc : d ≠ c := fun hh => hcd hh.symm
        have hne : c.toNat ≠ d.toNat := fun hh => hcd (char_toNat_inj c d hh)
        by_cases hlt : c.toNat < d.toNat
        · exact Or.inr (Or.inl (by simp [pyStrLt, if_neg hcd, hlt]))
        · exact Or.inr (Or.inr (by simp only [pyStrLt, if_neg hdc, decide_eq_true_eq]; omega))

/-- Python string comparison is transitive. -/
theorem pyStrLt_trans : ∀ a b c : PyStr,
    pyStrLt a b = true → pyStrLt b c = true → pyStrLt a c = true := by
  intro a
  induction a with
  | nil =>
    intro b c hab hbc
    cases b with
    | nil => simp [pyStrLt] at hab
    | cons d ds =>
      cases c with
      | nil => simp [pyStrLt] at hbc
      | cons e es => rfl
  | cons x xs ih =>
    intro b c hab hbc
    cases b with
    | nil => simp [pyStrLt] at hab
    | cons y ys =>
      cases c with
      | nil => simp [pyStrLt] at hbc
      | cons z zs =>
        by_cases hxy : x = y
        · subst hxy
          by_cases hxz : x = z
          · subst hxz
            simp only [pyStrLt, if_pos rfl] at hab hbc ⊢
            exact ih ys zs hab hbc
          · simp only [pyStrLt, if_pos rfl] at hab
            simp only [pyStrLt, if_neg hxz] at hbc ⊢
            exact hbc
        · by_cases hyz : y = z
          · subst hyz
            simp only [pyStrLt, if_neg hxy] at hab ⊢
            exact hab
          · simp only [pyStrLt, if_neg hxy, decide_eq_true_eq] at hab
            simp only [pyStrLt, if_neg hyz, decide_eq_true_eq] at hbc
            have hxz : ¬ x = z := by
              intro hh
              subst hh
              omega
            simp only [pyStrLt, if_neg hxz, decide_eq_true_eq]
            omega

/-- The Python sort key order is total. -/
theorem keyLe_total (a b : PyStr × ℚ) : keyLe a b = true ∨ keyLe b a = true := by
  unfold keyLe
  rcases lt_trichotomy a.2 b.2 with h | h | h
  · right
    simp [h]
  · rcases pyStrLt_total a.1 b.1 with hs | hs | hs
    · left
      simp [h, hs]
    · left
      simp [h, hs]
    · right
      simp [h.symm, hs]
  · left
    simp [h]

/-- The Python sort key order is transitive. -/
theorem keyLe_trans (a b c : PyStr × ℚ)
    (h1 : keyLe a b = true) (h2 : keyLe b c = true) : keyLe a c = true := by
  unfold keyLe at h1 h2 ⊢
  simp only [Bool.or_eq_true, Bool.and_eq_true, decide_eq_true_eq] at h1 h2 ⊢
  rcases h1 with h1 | ⟨h1e, h1s⟩
  · rcases h2 with h2 | ⟨h2e, h2s⟩
    · exact Or.inl (h2.trans h1)
    · exact Or.inl (h2e ▸ h1)
  · rcases h2 with h2 | ⟨h2e, h2s⟩
    · exact Or.inl (by rw [h1e]; exact h2)
    · refine Or.inr ⟨h1e.trans h2e, ?_⟩
      rcases h1s with he | hl
      · rcases h2s with he2 | hl2
        · exact Or.inl (he.trans he2)
        · exact Or.inr (he ▸ hl2)
      · rcases h2s with he2 | hl2
        · exact Or.inr (he2 ▸ hl)
        · exact Or.inr (pyStrLt_trans _ _ _ hl hl2)

/-- Inserting permutes to consing. -/
theorem insertKey_perm (x : PyStr × ℚ) : ∀ l, (insertKey x l).Perm (x :: l)
  | [] => List.Perm.refl _
  | y :: ys => by
    unfold insertKey
    by_cases h : keyLe x y = true
    · rw [if_pos h]
    · rw [if_neg h]
      exact ((insertKey_perm x ys).cons y).trans (List.Perm.swap x y ys)

/-- Sorting permutes the input. -/
theorem sortKey_perm : ∀ l, (sortKey l).Perm l
  | [] => List.Perm.refl _
  | x :: xs => (insertKey_perm x (sortKey xs)).trans ((sortKey_perm xs).cons x)

/-- Inserting into a key-sorted list keeps it key-sorted. -/
theorem insertKey_sorted (x : PyStr × ℚ) :
    ∀ l, List.Pairwise (fun a b => keyLe a b = true) l →
      List.Pairwise (fun a b => keyLe a b = true) (insertKey x l)
  | [], _ => List.Pairwise.cons (by simp) List.Pairwise.nil
  | y :: ys, hp => by
    unfold insertKey
    by_cases h : keyLe x y = true
    · rw [if_pos h]
      refine List.Pairwise.cons ?_ hp
      intro z hz
      rcases List.mem_cons.mp hz with rfl | hz2
      · exact h
      · exact keyLe_trans x y z h (List.rel_of_pairwise_cons hp hz2)
    · rw [if_neg h]
      have hyx : keyLe y x = true := (keyLe_total x y).resolve_left h
      refine List.Pairwise.cons ?_ (insertKey_sorted x ys (List.Pairwise.of_cons hp))
      intro z hz
      have hz3 := (insertKey_perm x ys).mem_iff.mp hz
      rcases List.mem_cons.mp hz3 with rfl | hz4
      · exact hyx
      · exact List.rel_of_pairwise_cons hp hz4

/-- The sort produces a key-sorted list. -/
theorem sortKey_sorted : ∀ l, List.Pairwise (fun a b => keyLe a b = true) (sortKey l)
  | [] => List.Pairwise.nil
  | x :: xs => insertKey_sorted x (sortKey xs) (sortKey_sorted xs)

/-- Unpacking `pairsOf`: the pairs carry exactly the input urls with their
priorities. -/
theorem pairsOf_spec : ∀ urls pairs, pairsOf urls = some pairs →
    pairs.map Prod.fst = urls ∧ ∀ e ∈ pairs, determine_priority e.1 = some e.2 := by
  intro urls
  induction urls with
  | nil =>
    intro pairs h
    simp only [pairsOf] at h
    cases h
    exact ⟨rfl, by simp⟩
  | cons u us ih =>
    intro pairs h
    simp only [pairsOf] at h
    split at h
    · rename_i p ps hdp hps
      cases h
      obtain ⟨hmap, hcontent⟩ := ih ps hps
      refine ⟨by simp [hmap], ?_⟩
      intro e he
      rcases List.mem_cons.mp he with rfl | he2
      · exact hdp
      · exact hcontent e he2
    · cases h

/-- The key order implies the claimed sitemap order: descending priority
with ties broken by ascending URL string. -/
theorem keyLe_imp_order (a b : PyStr × ℚ) (h : keyLe a b = true) :
    b.2 < a.2 ∨ (a.2 = b.2 ∧ pyStrLt b.1 a.1 = false) := by
  unfold keyLe at h
  simp only [Bool.or_eq_true, Bool.and_eq_true, decide_eq_true_eq] at h
  rcases h with h | ⟨he, hs⟩
  · exact Or.inl h
  · refine Or.inr ⟨he, ?_⟩
    rcases hs with he2 | hl
    · rw [he2]
      exact pyStrLt_irrefl _
    · exact pyStrLt_asymm _ _ hl

/-- Full specification of `generate_sitemap`: one entry per input url (the
entry urls are a permutation of the input), each entry carries the url's
priority, and consecutive entries descend in priority with ties broken by
ascending URL string. -/
theorem generate_sitemap_spec (urls : List PyStr) (entries : List (PyStr × ℚ))
    (h : generate_sitemap urls = some entries) :
    (entries.map Prod.fst).Perm urls ∧
    (∀ e ∈ entries, determine_priority e.1 = some e.2) ∧
    List.Pairwise
      (fun a b : PyStr × ℚ => b.2 < a.2 ∨ (a.2 = b.2 ∧ pyStrLt b.1 a.1 = false)) entries := by
  simp only [generate_sitemap] at h
  rcases hpo : pairsOf urls with _ | pairs
  · rw [hpo] at h
    cases h
  · rw [hpo] at h
    simp only [Option.map_some'] at h
    cases h
    obtain ⟨hmap, hcontent⟩ := pairsOf_spec urls pairs hpo
    refine ⟨?_, ?_, ?_⟩
    · have hperm : ((sortKey pairs).map Prod.fst).Perm (pairs.map Prod.fst) :=
        (sortKey_perm pairs).map _
      rw [hmap] at hperm
      exact hperm
    · intro e he
      exact hcontent e ((sortKey_perm pairs).subset he)
    · exact (sortKey_sorted pairs).imp (fun hab => keyLe_imp_order _ _ hab)

/-- Claim C7: for every input list of URLs, `generate_sitemap` emits one
entry per URL (the entries' urls are a permutation of the input), ordered
by descending priority with ties broken by ascending lexicographic URL
string, each entry carrying the url's priority. -/
theorem c7_sitemap_order (urls : List PyStr) (entries : List (PyStr × ℚ))
    (h : generate_sitemap urls = some entries) :
    (entries.map Prod.fst).Perm urls ∧
    (∀ e ∈ entries, determine_priority e.1 = some e.2) ∧
    List.Pairwise
      (fun a b : PyStr × ℚ => b.2 < a.2 ∨ (a.2 = b.2 ∧ pyStrLt b.1 a.1 = false)) entries :=
  generate_sitemap_spec urls entries h

/-- Witness for claim C7 at a concrete input. -/
theorem c7_sitemap_order_witness :
    ∃ entries, generate_sitemap ["https://h/a".data] = some entries ∧
      (entries.map Prod.fst).Perm ["https://h/a".data] :=
  ⟨_, rfl, (c7_sitemap_order ["https://h/a".data] _ rfl).1⟩

/-- Claim C10: `generate_sitemap` sorts its `urls` argument in place, so
after the call the caller's list is permuted into sitemap order
(descending priority, ties by ascending URL string) rather than left
unchanged; in this embedding the whole observable effect on the caller is
that new list value. -/
theorem c10_urls_after (urls out : List PyStr)
    (h : generate_sitemap_urls_after urls = some out) :
    out.Perm urls ∧
    List.Pairwise (fun a b : PyStr => ∃ pa pb, determine_priority a = some pa ∧
      determine_priority b = some pb ∧ (pb < pa ∨ (pa = pb ∧ pyStrLt b a = false))) out := by
  simp only [generate_sitemap_urls_after] at h
  rcases hg : generate_sitemap urls with _ | entries
  · rw [hg] at h
    cases h
  · rw [hg] at h
    simp only [Option.map_some'] at h
    cases h
    obtain ⟨hperm, hcontent, hsorted⟩ := generate_sitemap_spec urls entries hg
    refine ⟨hperm, ?_⟩
    rw [List.pairwise_map]
    refine List.Pairwise.imp_of_mem ?_ hsorted
    intro e1 e2 h1mem h2mem hrel
    exact ⟨e1.2, e2.2, hcontent e1 h1mem, hcontent e2 h2mem, hrel⟩

/-- Witness for claim C10 at a concrete input. -/
theorem c10_urls_after_witness :
    ∃ out, generate_sitemap_urls_after ["https://h/a".data] = some out ∧
      out.Perm ["https://h/a".data] :=
  ⟨_, rfl, (c10_urls_after ["https://h/a".data] _ rfl).1⟩

/-!  Claim C9: the root-path convention of `normalize_url`. -/

/-- Claim C9: for every URL whose parsed path is exactly the single slash,
`normalize_url` removes it — the result is reassembled from the parse with
an empty path component (and cleared fragment); the root-path edge case is
resolved in favour of stripping. -/
theorem c9_root_path (u : PyStr) (pr : ParseResult) (h : urlparse u = some pr)
    (hpath : pr.path = ['/']) :
    normalize_url u = some (urlunparse ⟨pr.scheme, pr.netloc, [], pr.params, pr.query, []⟩) := by
  obtain ⟨sc, nl, pa, pm, q, fr⟩ := pr
  simp only at hpath
  subst hpath
  simp [normalize_url, h]

/-- Witness for claim C9: `normalize_url "https://host/"` is
`"https://host"`, with an empty path. -/
theorem c9_root_path_witness :
    normalize_url "https://host/".data = some "https://host".data := by
  have h := c9_root_path "https://host/".data
    ⟨"https".data, "host".data, "/".data, [], [], []⟩ (by decide) (by decide)
  rw [h]
  decide

/-!  Claim C5: idempotence of `normalize_url`.  It is false in general —
stripping exactly one trailing slash makes a path ending in a double slash
normalize differently twice.  The amended claim proves idempotence for
URLs with an authority component whose parsed path has no semicolon, whose
params component is empty, and whose path does not end in a double
slash. -/

/-- Claim C5 is false as stated: `https://h/a//` normalizes to
`https://h/a/`, which normalizes further to `https://h/a`, so
`normalize_url` is not idempotent at this URL. -/
theorem c5_counterexample :
    normalize_url "https://h/a//".data = some "https://h/a/".data ∧
    normalize_url "https://h/a/".data = some "https://h/a".data ∧
    "https://h/a/".data ≠ "https://h/a".data := by
  refine ⟨by decide, by decide, by decide⟩

/-- Unsafe characters are all that `cleanUrl` may remove: a string without
them, whose head is above the C0/space range, is left unchanged. -/
theorem cleanUrl_eq_self (s : PyStr) (hok : ∀ c ∈ s, isUnsafeChar c = false)
    (hhead : s = [] ∨ ∃ x t, s = x :: t ∧ 32 < x.toNat) : cleanUrl s = s := by
  unfold cleanUrl
  have hdw : s.dropWhile (fun c => c.toNat ≤ 32) = s := by
    rcases hhead with rfl | ⟨x, t, rfl, hx⟩
    · rfl
    · have hd : decide (x.toNat ≤ 32) = false := decide_eq_false (by omega)
      rw [List.dropWhile_cons]
      simp [hd]
  rw [hdw, List.filter_eq_self.mpr]
  intro a ha
  simp [hok a ha]

/-- A list without `c` splits at `c` into itself and nothing. -/
theorem splitFirst_of_not_mem (c : Char) : ∀ s : PyStr, c ∉ s → splitFirst c s = (s, none)
  | [], _ => rfl
  | x :: xs, h => by
    have hx : ¬ x = c := fun hh => h (by simp [hh])
    have hxs : c ∉ xs := fun hh => h (List.mem_cons_of_mem x hh)
    simp only [splitFirst, if_neg hx, splitFirst_of_not_mem c xs hxs]

/-- Splitting at the explicitly first occurrence of `c`. -/
theorem splitFirst_append (c : Char) : ∀ (a b : PyStr), c ∉ a →
    splitFirst c (a ++ c :: b) = (a, some b)
  | [], b, _ => by simp [splitFirst]
  | x :: xs, b, h => by
    have hx : ¬ x = c := fun hh => h (by simp [hh])
    have hxs : c ∉ xs := fun hh => h (List.mem_cons_of_mem x hh)
    have ih := splitFirst_append c xs b hxs
    simp only [List.cons_append, splitFirst, if_neg hx, List.append_eq]
    rw [ih]

/-- Decomposition of a successful split. -/
theorem splitFirst_some_decomp (c : Char) : ∀ (s a b : PyStr), splitFirst c s = (a, some b) →
    s = a ++ c :: b ∧ c ∉ a := by
  intro s
  induction s with
  | nil =>
    intro a b h
    simp [splitFirst] at h
  | cons x xs ih =>
    intro a b h
    by_cases hx : x = c
    · subst hx
      simp only [splitFirst, if_pos rfl] at h
      obtain ⟨h1, h2⟩ := Prod.mk.injEq _ _ _ _ ▸ h
      cases h2
      cases h1
      exact ⟨rfl, by simp⟩
    · simp only [splitFirst, if_neg hx] at h
      rcases hsp : splitFirst c xs with ⟨a1, o⟩
      rw [hsp] at h
      cases o with
      | none => simp at h
      | some b1 =>
        have h1 : x :: a1 = a ∧ b1 = b := by simpa using h
        obtain ⟨h1, h2⟩ := h1
        subst h1
        subst h2
        obtain ⟨hdec, hnot⟩ := ih a1 b1 hsp
        subst hdec
        refine ⟨rfl, ?_⟩
        intro hmem
        rcases List.mem_cons.mp hmem with hh | hh
        · exact hx hh.symm
        · exact hnot hh

/-- Decomposition of an unsuccessful split. -/
theorem splitFirst_none_decomp (c : Char) : ∀ (s a : PyStr), splitFirst c s = (a, none) →
    s = a ∧ c ∉ s := by
  intro s
  induction s with
  | nil =>
    intro a h
    simp only [splitFirst] at h
    have h1 : ([] : PyStr) = a := by simpa using h
    subst h1
    exact ⟨rfl, by simp⟩
  | cons x xs ih =>
    intro a h
    by_cases hx : x = c
    · subst hx
      simp [splitFirst] at h
    · simp only [splitFirst, if_neg hx] at h
      rcases hsp : splitFirst c xs with ⟨a1, o⟩
      rw [hsp] at h
      cases o with
      | some b1 => simp at h
      | none =>
        have h1 : x :: a1 = a := by simpa using h
        subst h1
        obtain ⟨hdec, hnot⟩ := ih a1 hsp
        subst hdec
        refine ⟨rfl, ?_⟩
        intro hmem
        rcases List.mem_cons.mp hmem with hh | hh
        · exact hx hh.symm
        · exact hnot hh

/-- Characters of the first component of a split come from the input. -/
theorem splitFirst_fst_subset (c : Char) (s : PyStr) :
    ∀ x ∈ (splitFirst c s).1, x ∈ s := by
  intro x hx
  rcases hsp : splitFirst c s with ⟨a, o⟩
  rw [hsp] at hx
  cases o with
  | none =>
    obtain ⟨h1, _⟩ := splitFirst_none_decomp c s a hsp
    rw [h1]
    exact hx
  | some b =>
    obtain ⟨h1, _⟩ := splitFirst_some_decomp c s a b hsp
    rw [h1]
    exact List.mem_append_left _ hx

/-- The split character does not occur in the first component. -/
theorem splitFirst_fst_not_mem (c : Char) (s : PyStr) : c ∉ (splitFirst c s).1 := by
  rcases hsp : splitFirst c s with ⟨a, o⟩
  show c ∉ a
  cases o with
  | none =>
    obtain ⟨h1, h2⟩ := splitFirst_none_decomp c s a hsp
    rw [h1] at h2
    exact h2
  | some b => exact (splitFirst_some_decomp c s a b hsp).2

/-- The head of the first component of a split is the head of the input. -/
theorem splitFirst_fst_head (c : Char) (s : PyStr) :
    (splitFirst c s).1 = [] ∨ (splitFirst c s).1.head? = s.head? := by
  rcases hsp : splitFirst c s with ⟨a, o⟩
  cases o with
  | none =>
    obtain ⟨h1, _⟩ := splitFirst_none_decomp c s a hsp
    exact Or.inr (by rw [h1])
  | some b =>
    obtain ⟨h1, _⟩ := splitFirst_some_decomp c s a b hsp
    cases a with
    | nil => exact Or.inl rfl
    | cons x xs => exact Or.inr (by rw [h1]; rfl)

/-- Characters of the second component of a split come from the input. -/
theorem splitFirst_snd_subset (c : Char) (s b : PyStr) (h : (splitFirst c s).2 = some b) :
    ∀ x ∈ b, x ∈ s := by
  intro x hx
  rcases hsp : splitFirst c s with ⟨a, o⟩
  rw [hsp] at h
  cases o with
  | none => cases h
  | some b1 =>
    have hb : b1 = b := by simpa using h
    subst hb
    obtain ⟨h1, _⟩ := splitFirst_some_decomp c s a b1 hsp
    rw [h1]
    exact List.mem_append_right _ (List.mem_cons_of_mem _ hx)

/-- Splitting a list whose prefix satisfies the predicate and whose suffix
starts with a failing character. -/
theorem takeWhile_append_all (p : Char → Bool) :
    ∀ (a b : PyStr), (∀ c ∈ a, p c = true) →
      (b = [] ∨ ∃ x t, b = x :: t ∧ p x = false) →
      (a ++ b).takeWhile p = a ∧ (a ++ b).dropWhile p = b
  | [], b, _, hb => by
    rcases hb with rfl | ⟨x, t, rfl, hx⟩
    · exact ⟨rfl, rfl⟩
    · constructor
      · simp [List.takeWhile_cons, hx]
      · simp [List.dropWhile_cons, hx]
  | a :: as, b, ha, hb => by
    have hpa : p a = true := ha a (by simp)
    have ih := takeWhile_append_all p as b (fun c hc => ha c (List.mem_cons_of_mem a hc)) hb
    constructor
    · simp [List.takeWhile_cons, hpa, ih.1]
    · simp [List.dropWhile_cons, hpa, ih.2]

/-- Characters kept by `takeWhile` satisfy the predicate. -/
theorem mem_takeWhile_pred (p : Char → Bool) : ∀ (s : PyStr), ∀ c ∈ s.takeWhile p, p c = true
  | [], c, hc => by simp at hc
  | x :: xs, c, hc => by
    by_cases hx : p x = true
    · rw [List.takeWhile_cons, if_pos hx] at hc
      rcases List.mem_cons.mp hc with rfl | hc2
      · exact hx
      · exact mem_takeWhile_pred p xs c hc2
    · rw [List.takeWhile_cons, if_neg hx] at hc
      simp at hc

/-- The remainder of `dropWhile` is empty or starts with a failing
character. -/
theorem dropWhile_head (p : Char → Bool) : ∀ (s : PyStr),
    s.dropWhile p = [] ∨ ∃ x t, s.dropWhile p = x :: t ∧ p x = false
  | [] => Or.inl rfl
  | x :: xs => by
    by_cases hx : p x = true
    · rw [List.dropWhile_cons, if_pos hx]
      exact dropWhile_head p xs
    · rw [List.dropWhile_cons, if_neg hx]
      exact Or.inr ⟨x, xs, rfl, by simpa using hx⟩

/-- A valid code point is recovered by `Char.ofNat`. -/
theorem char_toNat_ofNat (n : ℕ) (hv : n.isValidChar) : (Char.ofNat n).toNat = n := by
  unfold Char.ofNat
  rw [dif_pos hv]
  rfl

/-- ASCII-letter test in terms of code points. -/
theorem char_isAlpha_iff (c : Char) :
    c.isAlpha = true ↔ (65 ≤ c.toNat ∧ c.toNat ≤ 90) ∨ (97 ≤ c.toNat ∧ c.toNat ≤ 122) := by
  simp only [Char.isAlpha, Char.isUpper, Char.isLower, Bool.or_eq_true, Bool.and_eq_true,
    decide_eq_true_eq]
  constructor
  · rintro (⟨h1, h2⟩ | ⟨h1, h2⟩)
    · exact Or.inl ⟨h1, h2⟩
    · exact Or.inr ⟨h1, h2⟩
  · rintro (⟨h1, h2⟩ | ⟨h1, h2⟩)
    · exact Or.inl ⟨h1, h2⟩
    · exact Or.inr ⟨h1, h2⟩

/-- Code point of `pyLower`. -/
theorem pyLower_toNat (c : Char) :
    (pyLower c).toNat = if 65 ≤ c.toNat ∧ c.toNat ≤ 90 then c.toNat + 32 else c.toNat := by
  unfold pyLower
  by_cases h : 'A' ≤ c ∧ c ≤ 'Z'
  · have h2 : 65 ≤ c.toNat ∧ c.toNat ≤ 90 := h
    rw [if_pos h, if_pos h2]
    exact char_toNat_ofNat _ (Or.inl (by omega))
  · have h2 : ¬ (65 ≤ c.toNat ∧ c.toNat ≤ 90) := h
    rw [if_neg h, if_neg h2]

/-- Lowercasing preserves being an ASCII letter. -/
theorem pyLower_isAlpha (c : Char) (h : c.isAlpha = true) : (pyLower c).isAlpha = true := by
  rw [char_isAlpha_iff] at h ⊢
  rw [pyLower_toNat]
  split
  · omega
  · omega

/-- Lowercasing is idempotent. -/
theorem pyLower_idem (c : Char) : pyLower (pyLower c) = pyLower c := by
  apply char_toNat_inj
  have h1 := pyLower_toNat c
  have h2 := pyLower_toNat (pyLower c)
  rw [h1] at h2
  rw [h2, h1]
  split_ifs <;> omega

set_option maxHeartbeats 1000000 in
/-- Scheme-character test in terms of code points. -/
theorem isSchemeChar_iff (c : Char) :
    isSchemeChar c = true ↔ (65 ≤ c.toNat ∧ c.toNat ≤ 90) ∨ (97 ≤ c.toNat ∧ c.toNat ≤ 122) ∨
      (48 ≤ c.toNat ∧ c.toNat ≤ 57) ∨ c.toNat = 43 ∨ c.toNat = 45 ∨ c.toNat = 46 := by
  simp only [isSchemeChar, Bool.or_eq_true, decide_eq_true_eq, char_isAlpha_iff]
  have hdigit : c.isDigit = true ↔ 48 ≤ c.toNat ∧ c.toNat ≤ 57 := by
    simp only [Char.isDigit, Bool.and_eq_true, decide_eq_true_eq]
    constructor
    · rintro ⟨h1, h2⟩
      exact ⟨h1, h2⟩
    · rintro ⟨h1, h2⟩
      exact ⟨h1, h2⟩
  have hplus : c = '+' ↔ c.toNat = 43 := by
    constructor
    · intro h
      rw [h]
      rfl
    · intro h
      exact char_toNat_inj c '+' h
  have hminus : c = '-' ↔ c.toNat = 45 := by
    constructor
    · intro h
      rw [h]
      rfl
    · intro h
      exact char_toNat_inj c '-' h
  have hdot : c = '.' ↔ c.toNat = 46 := by
    constructor
    · intro h
      rw [h]
      rfl
    · intro h
      exact char_toNat_inj c '.' h
  rw [hdigit, hplus, hminus, hdot]
  tauto

/-- Lowercasing preserves scheme characters. -/
theorem pyLower_schemeChar (c : Char) (h : isSchemeChar c = true) :
    isSchemeChar (pyLower c) = true := by
  rw [isSchemeChar_iff] at h ⊢
  rw [pyLower_toNat]
  split
  · omega
  · omega

/-- Characters with distinct code points are distinct. -/
theorem char_ne_of_toNat_ne (a b : Char) (h : a.toNat ≠ b.toNat) : a ≠ b :=
  fun hh => h (by rw [hh])

/-- The scheme component produced by a successful scheme recognition: a
nonempty string headed by an ASCII letter, with scheme characters after
it, fixed by lowercasing. -/
def SchemeOK (sch : PyStr) : Prop :=
  ∃ x t, sch = x :: t ∧ x.isAlpha = true ∧ (∀ c ∈ t, isSchemeChar c = true) ∧
    sch.map pyLower = sch

/-- A scheme-ok string contains no colon. -/
theorem SchemeOK.colon_not_mem (sch : PyStr) (h : SchemeOK sch) : ':' ∉ sch := by
  obtain ⟨x, t, rfl, hx, ht, _⟩ := h
  intro hmem
  rcases List.mem_cons.mp hmem with h1 | h1
  · rw [char_isAlpha_iff] at hx
    have hx58 : x.toNat = 58 := by
      rw [← h1]
      rfl
    omega
  · have h2 := ht _ h1
    rw [isSchemeChar_iff] at h2
    have h58 : (':' : Char).toNat = 58 := rfl
    rw [h58] at h2
    omega

/-- Mapping `pyLower` is idempotent on lists. -/
theorem map_pyLower_idem (l : PyStr) : (l.map pyLower).map pyLower = l.map pyLower := by
  rw [List.map_map]
  exact List.map_congr_left (fun a _ => pyLower_idem a)

/-- The nonempty scheme produced by `schemeSplit` satisfies `SchemeOK`. -/
theorem schemeSplit_schemeOK (s sch rest : PyStr) (h : schemeSplit s = (sch, rest))
    (hne : sch ≠ []) : SchemeOK sch := by
  unfold schemeSplit at h
  rcases hsp : splitFirst ':' s with ⟨pre, o⟩
  rw [hsp] at h
  cases o with
  | none =>
    have hsch : sch = [] := by
      have := (Prod.mk.injEq _ _ _ _ ▸ h).1
      exact this.symm
    exact absurd hsch hne
  | some post =>
    cases pre with
    | nil =>
      have hsch : sch = [] := by
        have := (Prod.mk.injEq _ _ _ _ ▸ h).1
        exact this.symm
      exact absurd hsch hne
    | cons x t =>
      by_cases hcond : x.isAlpha = true ∧ t.all isSchemeChar = true
      · have h2 : ((x :: t).map pyLower, post) = (sch, rest) := by
          rw [← h]
          simp only [if_pos hcond]
        have hsch : sch = (x :: t).map pyLower := ((Prod.mk.injEq _ _ _ _ ▸ h2).1).symm
        subst hsch
        refine ⟨pyLower x, t.map pyLower, by simp, pyLower_isAlpha x hcond.1, ?_, ?_⟩
        · intro c hc
          rcases List.mem_map.mp hc with ⟨c0, hc0, rfl⟩
          exact pyLower_schemeChar c0 (List.all_eq_true.mp hcond.2 c0 hc0)
        · exact map_pyLower_idem (x :: t)
      · have h2 : (([] : PyStr), s) = (sch, rest) := by
          rw [← h]
          simp only [if_neg hcond]
        have hsch : sch = [] := ((Prod.mk.injEq _ _ _ _ ▸ h2).1).symm
        exact absurd hsch hne

/-- Reparsing a scheme-ok scheme in front of a colon recovers it exactly. -/
theorem schemeSplit_append_schemeOK (sch rest : PyStr) (h : SchemeOK sch) :
    schemeSplit (sch ++ ':' :: rest) = (sch, rest) := by
  have hc : ':' ∉ sch := SchemeOK.colon_not_mem sch h
  obtain ⟨x, t, rfl, hx, ht, hmap⟩ := h
  unfold schemeSplit
  rw [splitFirst_append ':' (x :: t) rest hc]
  show (if x.isAlpha = true ∧ t.all isSchemeChar = true then ((x :: t).map pyLower, rest)
    else ([], (x :: t) ++ ':' :: rest)) = (x :: t, rest)
  rw [if_pos ⟨hx, List.all_eq_true.mpr ht⟩, hmap]

/-- A string that does not start with an ASCII letter has no scheme. -/
theorem schemeSplit_head_not_alpha (s : PyStr)
    (h : ∀ x, s.head? = some x → x.isAlpha = false) : schemeSplit s = ([], s) := by
  unfold schemeSplit
  rcases hsp : splitFirst ':' s with ⟨pre, o⟩
  cases o with
  | none => rfl
  | some post =>
    cases pre with
    | nil => rfl
    | cons x t =>
      obtain ⟨hdec, _⟩ := splitFirst_some_decomp ':' s (x :: t) post hsp
      have hhead : s.head? = some x := by
        rw [hdec]
        rfl
      have hxa : x.isAlpha = false := h x hhead
      have hcond : ¬ (x.isAlpha = true ∧ t.all isSchemeChar = true) := by
        intro hcond
        rw [hxa] at hcond
        exact Bool.false_ne_true hcond.1
      simp only [if_neg hcond]

/-- Strings free of the characters `urlsplit` deletes. -/
def StrOK (s : PyStr) : Prop := ∀ c ∈ s, isUnsafeChar c = false

/-- Unsafe-character test in terms of code points. -/
theorem isUnsafeChar_iff (c : Char) :
    isUnsafeChar c = true ↔ c.toNat = 9 ∨ c.toNat = 13 ∨ c.toNat = 10 := by
  simp only [isUnsafeChar, Bool.or_eq_true, decide_eq_true_eq]
  constructor
  · rintro ((h | h) | h)
    · exact Or.inl (by rw [h]; rfl)
    · exact Or.inr (Or.inl (by rw [h]; rfl))
    · exact Or.inr (Or.inr (by rw [h]; rfl))
  · rintro (h | h | h)
    · exact Or.inl (Or.inl (char_toNat_inj _ _ h))
    · exact Or.inl (Or.inr (char_toNat_inj _ _ h))
    · exact Or.inr (char_toNat_inj _ _ h)

/-- Lowercasing never produces an unsafe character from a safe one. -/
theorem pyLower_unsafe (c : Char) (h : isUnsafeChar c = false) :
    isUnsafeChar (pyLower c) = false := by
  rcases hb : isUnsafeChar (pyLower c) with _ | _
  · rfl
  · exfalso
    rw [isUnsafeChar_iff, pyLower_toNat] at hb
    have hc : ¬ (isUnsafeChar c = true) := by simp [h]
    rw [isUnsafeChar_iff] at hc
    split at hb
    · omega
    · omega

/-- Everything `cleanUrl` returns is free of unsafe characters. -/
theorem cleanUrl_StrOK (u : PyStr) : StrOK (cleanUrl u) := by
  intro c hc
  unfold cleanUrl at hc
  have h2 := List.of_mem_filter hc
  simpa using h2

/-- The result of `cleanUrl` is empty or starts above the C0/space range. -/
theorem cleanUrl_head (u : PyStr) :
    cleanUrl u = [] ∨ ∃ x t, cleanUrl u = x :: t ∧ 32 < x.toNat := by
  unfold cleanUrl
  rcases dropWhile_head (fun c => decide (c.toNat ≤ 32)) u with h | ⟨x, t, h, hx⟩
  · rw [h]
    exact Or.inl rfl
  · rw [h]
    have hx32 : 32 < x.toNat := by
      have := of_decide_eq_false hx
      omega
    have hxs : (!isUnsafeChar x) = true := by
      rcases hb : isUnsafeChar x with _ | _
      · rfl
      · exfalso
        rw [isUnsafeChar_iff] at hb
        omega
    rw [List.filter_cons, if_pos hxs]
    exact Or.inr ⟨x, _, rfl, hx32⟩

/-- Character accounting for `schemeSplit`: the remainder's characters come
from the input, the scheme's characters are lowercased input characters. -/
theorem schemeSplit_chars (s sch rest : PyStr) (h : schemeSplit s = (sch, rest)) :
    (∀ c ∈ rest, c ∈ s) ∧ (∀ c ∈ sch, ∃ c0, c0 ∈ s ∧ c = pyLower c0) := by
  unfold schemeSplit at h
  split at h
  · rename_i pre post hsp
    split at h
    · obtain ⟨h1, h2⟩ := Prod.mk.injEq _ _ _ _ ▸ h
      subst h1
      subst h2
      exact ⟨fun c hc => hc, fun c hc => by simp at hc⟩
    · rename_i x t
      obtain ⟨hdec, _⟩ := splitFirst_some_decomp ':' s (x :: t) post hsp
      split at h
      · obtain ⟨h1, h2⟩ := Prod.mk.injEq _ _ _ _ ▸ h
        subst h1
        subst h2
        constructor
        · intro c hc
          rw [hdec]
          exact List.mem_append_right _ (List.mem_cons_of_mem _ hc)
        · intro c hc
          rcases List.mem_map.mp hc with ⟨c0, hc0, rfl⟩
          exact ⟨c0, by rw [hdec]; exact List.mem_append_left _ hc0, rfl⟩
      · obtain ⟨h1, h2⟩ := Prod.mk.injEq _ _ _ _ ▸ h
        subst h1
        subst h2
        exact ⟨fun c hc => hc, fun c hc => by simp at hc⟩
  · obtain ⟨h1, h2⟩ := Prod.mk.injEq _ _ _ _ ▸ h
    subst h1
    subst h2
    exact ⟨fun c hc => hc, fun c hc => by simp at hc⟩

/-- Decomposition of an unsuccessful last-split. -/
theorem splitLast_none (c : Char) : ∀ s : PyStr, splitLast c s = none → c ∉ s := by
  intro s
  induction s with
  | nil =>
    intro _ hmem
    simp at hmem
  | cons x xs ih =>
    intro h hmem
    simp only [splitLast] at h
    rcases hsl : splitLast c xs with _ | pr
    · rw [hsl] at h
      by_cases hx : x = c
      · rw [if_pos hx] at h
        cases h
      · rw [if_neg hx] at h
        rcases List.mem_cons.mp hmem with hh | hh
        · exact hx hh.symm
        · exact ih hsl hh
    · rw [hsl] at h
      cases h

/-- Decomposition of a successful last-split. -/
theorem splitLast_some_decomp (c : Char) : ∀ (s : PyStr) (a b : PyStr),
    splitLast c s = some (a, b) → s = a ++ c :: b ∧ c ∉ b := by
  intro s
  induction s with
  | nil =>
    intro a b h
    simp [splitLast] at h
  | cons x xs ih =>
    intro a b h
    simp only [splitLast] at h
    rcases hsl : splitLast c xs with _ | ⟨a1, b1⟩
    · rw [hsl] at h
      by_cases hx : x = c
      · rw [if_pos hx] at h
        have h2 : ([] : PyStr) = a ∧ xs = b := by simpa using h
        obtain ⟨h2a, h2b⟩ := h2
        subst h2a
        subst h2b
        refine ⟨?_, splitLast_none _ _ hsl⟩
        rw [hx]
        rfl
      · rw [if_neg hx] at h
        cases h
    · rw [hsl] at h
      have h2 : x :: a1 = a ∧ b1 = b := by simpa using h
      obtain ⟨h2a, h2b⟩ := h2
      subst h2a
      subst h2b
      obtain ⟨hdec, hnot⟩ := ih a1 _ hsl
      subst hdec
      exact ⟨rfl, hnot⟩

/-- The path part produced by `splitparams` is an initial segment of the
input path. -/
theorem splitparams_fst_append (p : PyStr) : ∃ t, p = (splitparams p).1 ++ t := by
  rcases hsl : splitLast '/' p with _ | ⟨a, b⟩
  · rcases hsf : splitFirst ';' p with ⟨p1, o⟩
    cases o with
    | none =>
      have hval : splitparams p = (p, []) := by
        simp [splitparams, hsl, hsf]
      rw [hval]
      exact ⟨[], by simp⟩
    | some p2 =>
      have hval : splitparams p = (p1, p2) := by
        simp [splitparams, hsl, hsf]
      rw [hval]
      obtain ⟨hdec, _⟩ := splitFirst_some_decomp ';' p p1 p2 hsf
      exact ⟨';' :: p2, by simpa using hdec⟩
  · rcases hsf : splitFirst ';' b with ⟨b1, o⟩
    cases o with
    | none =>
      have hval : splitparams p = (p, []) := by
        simp [splitparams, hsl, hsf]
      rw [hval]
      exact ⟨[], by simp⟩
    | some b2 =>
      have hval : splitparams p = (a ++ '/' :: b1, b2) := by
        simp [splitparams, hsl, hsf]
      rw [hval]
      obtain ⟨hdecp, _⟩ := splitLast_some_decomp '/' p a b hsl
      obtain ⟨hdecb, _⟩ := splitFirst_some_decomp ';' b b1 b2 hsf
      refine ⟨';' :: b2, ?_⟩
      rw [hdecp, hdecb]
      simp

/-- Membership transfer out of `takeWhile`. -/
theorem mem_of_mem_takeWhile (p : Char → Bool) (l : PyStr) (x : Char)
    (h : x ∈ l.takeWhile p) : x ∈ l := by
  rw [← List.takeWhile_append_dropWhile p l]
  exact List.mem_append_left _ h

/-- Membership transfer out of `dropWhile`. -/
theorem mem_of_mem_dropWhile (p : Char → Bool) (l : PyStr) (x : Char)
    (h : x ∈ l.dropWhile p) : x ∈ l := by
  rw [← List.takeWhile_append_dropWhile p l]
  exact List.mem_append_right _ h

/-- The head of a list is a member. -/
theorem mem_of_head? (l : PyStr) (x : Char) (h : l.head? = some x) : x ∈ l := by
  cases l with
  | nil => simp at h
  | cons y ys =>
    simp only [List.head?_cons, Option.some.injEq] at h
    rw [h]
    simp

/-- A character failing `notDelim` is one of the three delimiters. -/
theorem notDelim_eq_false (c : Char) (h : notDelim c = false) :
    c = '/' ∨ c = '?' ∨ c = '#' := by
  have h2 : (c = '/' || c = '?' || c = '#') = true := by
    revert h
    unfold notDelim
    cases hb : (c = '/' || c = '?' || c = '#') <;> simp
  have h3 : (c = '/' ∨ c = '?') ∨ c = '#' := by simpa using h2
  tauto

/-- The three delimiters fail `notDelim`. -/
theorem notDelim_delim : notDelim '/' = false ∧ notDelim '?' = false ∧ notDelim '#' = false := by
  refine ⟨rfl, rfl, rfl⟩

/-- The components of `mkSplit`, written out. -/
theorem mkSplit_eq (s n r : PyStr) :
    mkSplit s n r = ⟨s, n, (splitFirst '?' (splitFirst '#' r).1).1,
      ((splitFirst '?' (splitFirst '#' r).1).2).getD [], ((splitFirst '#' r).2).getD []⟩ := rfl

/-- Path and query facts for `mkSplit`: no hash or question mark in the
path, the path is empty or starts like `r`, no hash in the query, and both
are built from characters of `r`. -/
theorem mkSplit_path_query (s n r : PyStr) :
    ('#' ∉ (mkSplit s n r).path) ∧ ('?' ∉ (mkSplit s n r).path) ∧
    ((mkSplit s n r).path = [] ∨ (mkSplit s n r).path.head? = r.head?) ∧
    ('#' ∉ (mkSplit s n r).query) ∧
    (∀ c ∈ (mkSplit s n r).path, c ∈ r) ∧ (∀ c ∈ (mkSplit s n r).query, c ∈ r) := by
  rw [mkSplit_eq]
  simp only
  constructor
  · intro hc
    exact splitFirst_fst_not_mem '#' r
      (splitFirst_fst_subset '?' (splitFirst '#' r).1 '#' hc)
  constructor
  · exact splitFirst_fst_not_mem '?' (splitFirst '#' r).1
  constructor
  · rcases splitFirst_fst_head '?' (splitFirst '#' r).1 with h1 | h1
    · exact Or.inl h1
    · rcases splitFirst_fst_head '#' r with h2 | h2
      · left
        rw [h2]
        rfl
      · rw [h2] at h1
        exact Or.inr h1
  constructor
  · rcases hq : (splitFirst '?' (splitFirst '#' r).1).2 with _ | qv
    · simp
    · simp only [Option.getD_some]
      intro hc
      exact splitFirst_fst_not_mem '#' r
        (splitFirst_snd_subset '?' (splitFirst '#' r).1 qv hq '#' hc)
  constructor
  · intro c hc
    exact splitFirst_fst_subset '#' r c
      (splitFirst_fst_subset '?' (splitFirst '#' r).1 c hc)
  · intro c hc
    rcases hq : (splitFirst '?' (splitFirst '#' r).1).2 with _ | qv
    · rw [hq] at hc
      simp at hc
    · rw [hq] at hc
      simp only [Option.getD_some] at hc
      exact splitFirst_fst_subset '#' r c
        (splitFirst_snd_subset '?' (splitFirst '#' r).1 qv hq c hc)

/-- Decomposition of a `urlsplit` result whose netloc is nonempty: the
scheme is empty or a valid lowered scheme, the netloc contains no
delimiter and has balanced square brackets, the path is empty or starts
with a slash and has no hash or question mark, the query has no hash, and
all components are free of unsafe characters. -/
theorem urlsplit_netloc_decomp (u : PyStr) (sr : SplitResult) (h : urlsplit u = some sr)
    (hnl : sr.netloc ≠ []) :
    (sr.scheme = [] ∨ SchemeOK sr.scheme) ∧
    (∀ c ∈ sr.netloc, notDelim c = true) ∧
    (('[' ∈ sr.netloc) ↔ (']' ∈ sr.netloc)) ∧
    (sr.path = [] ∨ sr.path.head? = some '/') ∧
    ('#' ∉ sr.path) ∧ ('?' ∉ sr.path) ∧ ('#' ∉ sr.query) ∧
    StrOK sr.scheme ∧ StrOK sr.netloc ∧ StrOK sr.path ∧ StrOK sr.query := by
  have hUok : StrOK (cleanUrl u) := cleanUrl_StrOK u
  have hpair : schemeSplit (cleanUrl u) =
      ((schemeSplit (cleanUrl u)).1, (schemeSplit (cleanUrl u)).2) := rfl
  obtain ⟨hu2sub, hschsub⟩ := schemeSplit_chars (cleanUrl u) _ _ hpair
  have hschOK : StrOK (schemeSplit (cleanUrl u)).1 := by
    intro c hc
    rcases hschsub c hc with ⟨c0, hc0, rfl⟩
    exact pyLower_unsafe c0 (hUok c0 hc0)
  have hu2OK : StrOK (schemeSplit (cleanUrl u)).2 :=
    fun c hc => hUok c (hu2sub c hc)
  have hschV : (schemeSplit (cleanUrl u)).1 = [] ∨ SchemeOK (schemeSplit (cleanUrl u)).1 := by
    by_cases hs : (schemeSplit (cleanUrl u)).1 = []
    · exact Or.inl hs
    · exact Or.inr (schemeSplit_schemeOK (cleanUrl u) _ _ hpair hs)
  simp only [urlsplit, urlsplitCore] at h
  split at h
  · rename_i htake
    split at h
    · rename_i hbr
      have hsr : sr = mkSplit (schemeSplit (cleanUrl u)).1
          ((((schemeSplit (cleanUrl u)).2).drop 2).takeWhile notDelim)
          ((((schemeSplit (cleanUrl u)).2).drop 2).dropWhile notDelim) := by
        cases h
        rfl
      subst hsr
      obtain ⟨hph, hpq, hphead, hqh, hpsub, hqsub⟩ := mkSplit_path_query
        (schemeSplit (cleanUrl u)).1
        ((((schemeSplit (cleanUrl u)).2).drop 2).takeWhile notDelim)
        ((((schemeSplit (cleanUrl u)).2).drop 2).dropWhile notDelim)
      have hdropOK : StrOK (((schemeSplit (cleanUrl u)).2).drop 2) :=
        fun c hc => hu2OK c (List.mem_of_mem_drop hc)
      have hrestOK : StrOK ((((schemeSplit (cleanUrl u)).2).drop 2).dropWhile notDelim) :=
        fun c hc => hdropOK c (mem_of_mem_dropWhile _ _ c hc)
      refine ⟨hschV, ?_, hbr, ?_, hph, hpq, hqh, hschOK, ?_, ?_, ?_⟩
      · exact fun c hc => mem_takeWhile_pred notDelim _ c hc
      · rcases hphead with h1 | h1
        · exact Or.inl h1
        · rcases dropWhile_head notDelim (((schemeSplit (cleanUrl u)).2).drop 2) with h2 | ⟨x, t, h2, hx⟩
          · conv at h1 => rhs; rw [h2]
            simp only [List.head?_nil] at h1
            exact Or.inl (List.head?_eq_none_iff.mp h1)
          · conv at h1 => rhs; rw [h2]
            simp only [List.head?_cons] at h1
            rcases notDelim_eq_false x hx with rfl | rfl | rfl
            · exact Or.inr h1
            · exfalso
              exact hpq (mem_of_head? _ _ h1)
            · exfalso
              exact hph (mem_of_head? _ _ h1)
      · exact fun c hc => hdropOK c (mem_of_mem_takeWhile _ _ c hc)
      · exact fun c hc => hrestOK c (hpsub c hc)
      · exact fun c hc => hrestOK c (hqsub c hc)
    · cases h
  · rename_i htake
    have hsr : sr = mkSplit (schemeSplit (cleanUrl u)).1 [] (schemeSplit (cleanUrl u)).2 := by
      cases h
      rfl
    rw [hsr] at hnl
    exact absurd rfl hnl

/-- Splitting a reassembled authority-form URL after scheme removal: the
double slash, the delimiter-free netloc, the slash-headed (or empty) path
and the optional query are recovered exactly. -/
theorem urlsplitCore_after (s sch nl p q qp w : PyStr)
    (hss : schemeSplit s = (sch, w))
    (hw : w = '/' :: '/' :: (nl ++ (p ++ qp)))
    (hqp : qp = if q = [] then [] else '?' :: q)
    (hnld : ∀ c ∈ nl, notDelim c = true)
    (hbr : ('[' ∈ nl) ↔ (']' ∈ nl))
    (hpath : p = [] ∨ p.head? = some '/')
    (hph : '#' ∉ p) (hpq : '?' ∉ p) (hqh : '#' ∉ q) :
    urlsplitCore s = some ⟨sch, nl, p, q, []⟩ := by
  have hbstart : (p ++ qp) = [] ∨ ∃ x t, p ++ qp = x :: t ∧ notDelim x = false := by
    rcases hpath with rfl | hh
    · by_cases hqe : q = []
      · rw [hqp, if_pos hqe]
        exact Or.inl rfl
      · rw [hqp, if_neg hqe]
        exact Or.inr ⟨'?', q, rfl, rfl⟩
    · cases p with
      | nil => simp at hh
      | cons x t =>
        simp only [List.head?_cons, Option.some.injEq] at hh
        subst hh
        exact Or.inr ⟨'/', t ++ qp, rfl, rfl⟩
  obtain ⟨htw, hdw⟩ := takeWhile_append_all notDelim nl (p ++ qp) hnld hbstart
  have hsharp : '#' ∉ p ++ qp := by
    intro hmem
    rcases List.mem_append.mp hmem with hm | hm
    · exact hph hm
    · by_cases hqe : q = []
      · rw [hqp, if_pos hqe] at hm
        simp at hm
      · rw [hqp, if_neg hqe] at hm
        rcases List.mem_cons.mp hm with hm2 | hm2
        · cases hm2
        · exact hqh hm2
  have hfr : splitFirst '#' (p ++ qp) = (p ++ qp, none) :=
    splitFirst_of_not_mem '#' (p ++ qp) hsharp
  have hqr : splitFirst '?' (p ++ qp) = (p, if q = [] then none else some q) := by
    by_cases hqe : q = []
    · rw [hqp, if_pos hqe, if_pos hqe, List.append_nil]
      exact splitFirst_of_not_mem '?' p hpq
    · rw [hqp, if_neg hqe, if_neg hqe]
      exact splitFirst_append '?' p q hpq
  unfold urlsplitCore
  simp only [hss]
  rw [hw]
  have htake : List.take 2 ('/' :: '/' :: (nl ++ (p ++ qp))) = ['/', '/'] := rfl
  have hdrop : List.drop 2 ('/' :: '/' :: (nl ++ (p ++ qp))) = nl ++ (p ++ qp) := rfl
  rw [if_pos htake, hdrop, htw, hdw, if_pos hbr]
  unfold mkSplit
  rw [hfr]
  simp only
  rw [hqr]
  by_cases hqe : q = []
  · rw [if_pos hqe]
    simp [hqe]
  · rw [if_neg hqe]
    simp

/-- Inverting `urlunparse` for a parse result with a nonempty netloc, an
empty params component and a cleared fragment: `urlparse` recovers the
components exactly. -/
theorem urlparse_urlunparse_netloc (sch nl p q : PyStr)
    (hsch : sch = [] ∨ SchemeOK sch)
    (hnl : nl ≠ []) (hnld : ∀ c ∈ nl, notDelim c = true)
    (hbr : ('[' ∈ nl) ↔ (']' ∈ nl))
    (hpath : p = [] ∨ p.head? = some '/')
    (hph : '#' ∉ p) (hpq : '?' ∉ p) (hpsemi : ';' ∉ p)
    (hqh : '#' ∉ q)
    (hsOK : StrOK sch) (hnOK : StrOK nl) (hpOK : StrOK p) (hqOK : StrOK q) :
    urlparse (urlunparse ⟨sch, nl, p, [], q, []⟩) = some ⟨sch, nl, p, [], q, []⟩ := by
  have hu1a : (if p ≠ [] ∧ p.head? ≠ some '/' then '/' :: p else p) = p := by
    rcases hpath with rfl | hh
    · simp
    · rw [if_neg]
      intro hcon
      exact hcon.2 hh
  have hqpOK : StrOK (if q = [] then [] else '?' :: q) := by
    by_cases hqe : q = []
    · rw [if_pos hqe]
      intro c hc
      simp at hc
    · rw [if_neg hqe]
      intro c hc
      rcases List.mem_cons.mp hc with rfl | hc2
      · rfl
      · exact hqOK c hc2
  have hwOK : StrOK ('/' :: '/' :: (nl ++ (p ++ (if q = [] then [] else '?' :: q)))) := by
    intro c hc
    rcases List.mem_cons.mp hc with rfl | hc
    · rfl
    rcases List.mem_cons.mp hc with rfl | hc
    · rfl
    rcases List.mem_append.mp hc with hc | hc
    · exact hnOK c hc
    rcases List.mem_append.mp hc with hc | hc
    · exact hpOK c hc
    · exact hqpOK c hc
  have hv : urlunparse ⟨sch, nl, p, [], q, []⟩ =
      (if sch = [] then ([] : PyStr) else sch ++ [':']) ++
        ('/' :: '/' :: (nl ++ (p ++ (if q = [] then [] else '?' :: q)))) := by
    by_cases hs : sch = [] <;> by_cases hqe : q = [] <;>
      simp [urlunparse, hs, hqe, hu1a, hnl]
  rw [hv]
  by_cases hs : sch = []
  · subst hs
    rw [if_pos rfl, List.nil_append]
    have hclean : cleanUrl ('/' :: '/' ::
        (nl ++ (p ++ (if q = [] then [] else '?' :: q)))) =
        '/' :: '/' :: (nl ++ (p ++ (if q = [] then [] else '?' :: q))) := by
      apply cleanUrl_eq_self _ hwOK
      exact Or.inr ⟨'/', _, rfl, by decide⟩
    have hss : schemeSplit ('/' :: '/' ::
        (nl ++ (p ++ (if q = [] then [] else '?' :: q)))) =
        ([], '/' :: '/' :: (nl ++ (p ++ (if q = [] then [] else '?' :: q)))) := by
      apply schemeSplit_head_not_alpha
      intro x hx
      simp only [List.head?_cons, Option.some.injEq] at hx
      rw [← hx]
      decide
    have hcore := urlsplitCore_after _ [] nl p q _ _ hss rfl rfl hnld hbr hpath hph hpq hqh
    unfold urlparse urlsplit
    rw [hclean, hcore]
    simp only [Option.map_some']
    rw [if_neg (fun hcon => hpsemi hcon.2)]
  · rw [if_neg hs]
    obtain ⟨x, t, hschx, hxa, _, _⟩ := hsch.resolve_left hs
    have hvhead : (sch ++ [':']) ++ ('/' :: '/' ::
        (nl ++ (p ++ (if q = [] then [] else '?' :: q)))) =
        sch ++ ':' :: ('/' :: '/' :: (nl ++ (p ++ (if q = [] then [] else '?' :: q)))) := by
      simp
    rw [hvhead]
    have hclean : cleanUrl (sch ++ ':' :: ('/' :: '/' ::
        (nl ++ (p ++ (if q = [] then [] else '?' :: q))))) =
        sch ++ ':' :: ('/' :: '/' :: (nl ++ (p ++ (if q = [] then [] else '?' :: q)))) := by
      apply cleanUrl_eq_self
      · intro c hc
        rcases List.mem_append.mp hc with hc | hc
        · exact hsOK c hc
        rcases List.mem_cons.mp hc with rfl | hc
        · rfl
        · exact hwOK c hc
      · refine Or.inr ⟨x, t ++ ':' :: ('/' :: '/' ::
          (nl ++ (p ++ (if q = [] then [] else '?' :: q)))), ?_, ?_⟩
        · rw [hschx]
          rfl
        · rw [char_isAlpha_iff] at hxa
          omega
    have hss := schemeSplit_append_schemeOK sch
      ('/' :: '/' :: (nl ++ (p ++ (if q = [] then [] else '?' :: q))))
      (hsch.resolve_left hs)
    have hcore := urlsplitCore_after _ sch nl p q _ _ hss rfl rfl hnld hbr hpath hph hpq hqh
    unfold urlparse urlsplit
    rw [hclean, hcore]
    simp only [Option.map_some']
    rw [if_neg (fun hcon => hpsemi hcon.2)]

/-- Claim C5 (amended): `normalize_url` is idempotent on every URL with an
authority component (nonempty netloc) whose parse has an empty params
component, no semicolon in the path, and a path that does not end in a
double slash; the counterexample shows the unrestricted claim fails on a
path ending in a double slash (and a semicolon in the last path segment
can likewise be re-split as params on the second pass). -/
theorem c5_amended (u : PyStr) (pr0 : ParseResult)
    (h : urlparse u = some pr0)
    (hnl : pr0.netloc ≠ [])
    (hparams : pr0.params = [])
    (hsemi : ';' ∉ pr0.path)
    (hsuffix : ¬ (['/', '/'] <:+ pr0.path))
    (v : PyStr) (hv : normalize_url u = some v) :
    normalize_url v = some v := by
  -- unpack the urlsplit result underneath the parse
  rcases hsr : urlsplit u with _ | sr
  · unfold urlparse at h
    rw [hsr] at h
    cases h
  have hfn : pr0.scheme = sr.scheme ∧ pr0.netloc = sr.netloc ∧ pr0.query = sr.query ∧
      pr0.fragment = sr.fragment ∧ ∃ t, sr.path = pr0.path ++ t := by
    unfold urlparse at h
    rw [hsr] at h
    simp only [Option.map_some'] at h
    split at h
    · cases h
      refine ⟨rfl, rfl, rfl, rfl, ?_⟩
      exact splitparams_fst_append sr.path
    · cases h
      exact ⟨rfl, rfl, rfl, rfl, [], by simp⟩
  obtain ⟨hfsch, hfnl, hfq, hffr, t0, hft⟩ := hfn
  have hnl' : sr.netloc ≠ [] := by
    rw [← hfnl]
    exact hnl
  obtain ⟨hschV, hnld, hbr, hphead, hph, hpq, hqh, hschOK, hnOK, hpOK, hqOK⟩ :=
    urlsplit_netloc_decomp u sr hsr hnl'
  -- transfer path facts from sr.path to pr0.path
  have hsub0 : ∀ c ∈ pr0.path, c ∈ sr.path := by
    intro c hc
    rw [hft]
    exact List.mem_append_left _ hc
  have hph0 : '#' ∉ pr0.path := fun hc => hph (hsub0 _ hc)
  have hpq0 : '?' ∉ pr0.path := fun hc => hpq (hsub0 _ hc)
  have hpOK0 : StrOK pr0.path := fun c hc => hpOK c (hsub0 c hc)
  have hphead0 : pr0.path = [] ∨ pr0.path.head? = some '/' := by
    cases hp0 : pr0.path with
    | nil => exact Or.inl rfl
    | cons x xs =>
      right
      rcases hphead with h1 | h1
      · rw [hft, hp0] at h1
        simp at h1
      · rw [hft, hp0] at h1
        simpa using h1
  -- the stripped path
  obtain ⟨sc0, nl0, pa0, pm0, q0, fr0⟩ := pr0
  simp only at hfsch hfnl hfq hffr hft hnl hsemi hsuffix hph0 hpq0 hpOK0 hphead0 hsub0
  simp only at hparams
  subst hparams
  have hveq : v = urlunparse ⟨sc0, nl0,
      (if pa0.getLast? = some '/' then pa0.dropLast else pa0), [], q0, []⟩ := by
    unfold normalize_url at hv
    rw [h] at hv
    simp only [Option.map_some'] at hv
    have hv2 := Option.some.inj hv
    rw [← hv2]
    by_cases hlast : pa0.getLast? = some '/'
    · simp only [if_pos hlast]
    · simp only [if_neg hlast]
  set p1 : PyStr := if pa0.getLast? = some '/' then pa0.dropLast else pa0 with hp1
  -- p1 is an initial segment of pa0
  have hp1app : ∃ t1, pa0 = p1 ++ t1 := by
    by_cases hlast : pa0.getLast? = some '/'
    · refine ⟨['/'], ?_⟩
      rw [hp1, if_pos hlast]
      exact (List.dropLast_append_getLast? _ hlast).symm
    · exact ⟨[], by rw [hp1, if_neg hlast]; simp⟩
  obtain ⟨t1, hp1t⟩ := hp1app
  have hp1sub : ∀ c ∈ p1, c ∈ pa0 := by
    intro c hc
    rw [hp1t]
    exact List.mem_append_left _ hc
  have hp1h : '#' ∉ p1 := fun hc => hph0 (hp1sub _ hc)
  have hp1q : '?' ∉ p1 := fun hc => hpq0 (hp1sub _ hc)
  have hp1semi : ';' ∉ p1 := fun hc => hsemi (hp1sub _ hc)
  have hp1OK : StrOK p1 := fun c hc => hpOK0 c (hp1sub c hc)
  have hp1head : p1 = [] ∨ p1.head? = some '/' := by
    cases hp1c : p1 with
    | nil => exact Or.inl rfl
    | cons x xs =>
      right
      rcases hphead0 with h1 | h1
      · rw [h1] at hp1t
        have : p1 = [] := by
          cases hcc : p1
          · rfl
          · rw [hcc] at hp1t
            simp at hp1t
        rw [this] at hp1c
        cases hp1c
      · rw [hp1t] at h1
        rw [hp1c] at h1
        simpa using h1
  -- p1 has no trailing slash
  have hp1last : p1.getLast? ≠ some '/' := by
    intro hlast1
    by_cases hlast : pa0.getLast? = some '/'
    · have hp1d : p1 = p1.dropLast ++ ['/'] := (List.dropLast_append_getLast? _ hlast1).symm
      have hpa0d : pa0 = p1 ++ ['/'] := by
        rw [hp1, if_pos hlast] at hp1d ⊢
        exact (List.dropLast_append_getLast? _ hlast).symm
      apply hsuffix
      refine ⟨p1.dropLast, ?_⟩
      rw [hpa0d]
      conv_rhs => rw [hp1d]
      simp
    · rw [hp1, if_neg hlast] at hlast1
      exact hlast hlast1
  -- scheme facts transferred
  have hschV0 : sc0 = [] ∨ SchemeOK sc0 := by
    rw [hfsch]
    exact hschV
  have hschOK0 : StrOK sc0 := by
    rw [hfsch]
    exact hschOK
  have hnld0 : ∀ c ∈ nl0, notDelim c = true := by
    rw [hfnl]
    exact hnld
  have hbr0 : ('[' ∈ nl0) ↔ (']' ∈ nl0) := by
    rw [hfnl]
    exact hbr
  have hnOK0 : StrOK nl0 := by
    rw [hfnl]
    exact hnOK
  have hqh0 : '#' ∉ q0 := by
    rw [hfq]
    exact hqh
  have hqOK0 : StrOK q0 := by
    rw [hfq]
    exact hqOK
  -- round trip
  have hrt := urlparse_urlunparse_netloc sc0 nl0 p1 q0 hschV0 hnl hnld0 hbr0 hp1head
    hp1h hp1q hp1semi hqh0 hschOK0 hnOK0 hp1OK hqOK0
  rw [← hveq] at hrt
  unfold normalize_url
  rw [hrt]
  simp only [Option.map_some']
  rw [if_neg hp1last, hveq]

/-- Witness for `c5_amended`: for u = "https://h/a/" the hypotheses hold
(the parsed path "/a/" has no ';' and does not end in "//"), normalize_url
gives "https://h/a", and that output is a fixed point of normalize_url. -/
theorem c5_amended_witness :
    normalize_url ("https://h/a".data) = some ("https://h/a".data) :=
  c5_amended ("https://h/a/".data)
    ⟨"https".data, "h".data, "/a/".data, [], [], []⟩
    (by decide) (by decide) (by decide) (by decide) (by decide)
    ("https://h/a".data) (by decide)

end SitemapPy
